import Mathlib

/-!
Verification of the iridium-sniffer frame-decoding and burst-detection
pipeline against its natural-language specification.

The definitions below are shallow embeddings of the C sources:
  - `src/frame_decode.c`  (bit utilities, GF(2) remainder, BCH syndrome
    tables, de-interleaving, chase decoder, parity gate, IRA/IBC parsing,
    `frame_decode`)
  - `src/ida_decode.c`    (the access-code gate of `ida_decode`)
  - `src/qpsk_demod.c`    (unique-word checks and the demod output record)
  - `src/burst_detect.c`  (active-burst tracking, squelch, baseline state)

Machine integers are modelled as `Nat`/`Int` (the C code never overflows in
the modelled paths except where an explicit `% 2^32` is written), C floats
holding exact small values (LLR orderings, magnitude-squared bins) are
modelled as `Rat`, and `double` trigonometry is modelled over `Real`.
-/

namespace IridiumSniffer

/-! ## Bit-vector helpers (frame_decode.c lines 66-80) -/

/-- `bits_to_uint` (frame_decode.c:66): MSB-first accumulation
`val = (val << 1) | (bits[i] & 1)` over the given bits. -/
def bits_to_uint (bits : List ℕ) : ℕ :=
  bits.foldl (fun v b => 2 * v + b % 2) 0

/-- `uint_to_bits` (frame_decode.c:74): write `n` bits MSB-first,
`bits[i] = (val >> (n-1-i)) & 1`. -/
def uint_to_bits (val n : ℕ) : List ℕ :=
  (List.range n).map (fun i => val / 2 ^ (n - 1 - i) % 2)

theorem bits_to_uint_foldl (l : List ℕ) (v : ℕ) :
    l.foldl (fun v b => 2 * v + b % 2) v = v * 2 ^ l.length + bits_to_uint l := by
  induction l generalizing v with
  | nil => simp [bits_to_uint]
  | cons x xs ih =>
      rw [List.foldl_cons, ih]
      have h : bits_to_uint (x :: xs) =
          xs.foldl (fun v b => 2 * v + b % 2) (2 * 0 + x % 2) := rfl
      rw [h, ih]
      simp only [List.length_cons]
      ring

theorem bits_to_uint_append (a b : List ℕ) :
    bits_to_uint (a ++ b) = bits_to_uint a * 2 ^ b.length + bits_to_uint b := by
  unfold bits_to_uint
  rw [List.foldl_append, bits_to_uint_foldl]
  rfl

theorem uint_to_bits_le_one (val n : ℕ) : ∀ b ∈ uint_to_bits val n, b ≤ 1 := by
  intro b hb
  simp only [uint_to_bits, List.mem_map] at hb
  obtain ⟨i, _, rfl⟩ := hb
  omega

theorem uint_to_bits_length (val n : ℕ) : (uint_to_bits val n).length = n := by
  simp [uint_to_bits]

theorem uint_to_bits_succ (val n : ℕ) :
    uint_to_bits val (n + 1) = val / 2 ^ n % 2 :: uint_to_bits val n := by
  simp only [uint_to_bits, List.range_succ_eq_map, List.map_cons, List.map_map]
  refine List.cons_eq_cons.mpr ⟨by norm_num, ?_⟩
  apply List.map_congr_left
  intro i _
  simp only [Function.comp_apply]
  have h : n + 1 - 1 - (i + 1) = n - 1 - i := by omega
  rw [h]

theorem bits_to_uint_uint_to_bits_mod (val n : ℕ) :
    bits_to_uint (uint_to_bits val n) = val % 2 ^ n := by
  induction n with
  | zero => simp [uint_to_bits, bits_to_uint, Nat.mod_one]
  | succ n ih =>
      rw [uint_to_bits_succ]
      have hcons : val / 2 ^ n % 2 :: uint_to_bits val n =
          [val / 2 ^ n % 2] ++ uint_to_bits val n := rfl
      rw [hcons, bits_to_uint_append, ih, uint_to_bits_length]
      have h1 : bits_to_uint [val / 2 ^ n % 2] = val / 2 ^ n % 2 := by
        simp only [bits_to_uint, List.foldl_cons, List.foldl_nil]
        omega
      rw [h1]
      have h2 : (2 : ℕ) ^ (n + 1) = 2 ^ n * 2 := by ring
      rw [h2, Nat.mod_mul]
      ring

theorem bits_to_uint_uint_to_bits (val n : ℕ) (h : val < 2 ^ n) :
    bits_to_uint (uint_to_bits val n) = val := by
  rw [bits_to_uint_uint_to_bits_mod, Nat.mod_eq_of_lt h]

theorem bits_to_uint_lt (bits : List ℕ) :
    bits_to_uint bits < 2 ^ bits.length := by
  unfold bits_to_uint
  induction bits using List.reverseRecOn with
  | nil => simp
  | append_singleton xs x ih =>
      rw [List.foldl_append]
      simp only [List.foldl_cons, List.foldl_nil, List.length_append,
        List.length_singleton]
      have : x % 2 < 2 := Nat.mod_lt _ (by norm_num)
      have h2 : (2 : ℕ) ^ (xs.length + 1) = 2 * 2 ^ xs.length := by ring
      omega

/-! ## GF(2) polynomial remainder (frame_decode.c lines 82-91) -/

/-- Bit length of a 32-bit value, `32 - __builtin_clz(n)` in the C source;
computed with explicit fuel 32 so that it reduces by kernel evaluation. -/
def bit_length_fuel : ℕ → ℕ → ℕ
  | 0, _ => 0
  | f + 1, n => if n = 0 then 0 else bit_length_fuel f (n / 2) + 1

/-- `poly_bits = 32 - __builtin_clz(poly)` (frame_decode.c:85). -/
def bit_length (n : ℕ) : ℕ := bit_length_fuel 32 n

/-- One iteration of the `gf2_remainder` loop body (frame_decode.c:86-89):
if bit `i` of `val` is set, XOR in `poly << (i - poly_bits + 1)`. -/
def gf2_step (poly pb val i : ℕ) : ℕ :=
  if val.testBit i then val ^^^ (poly <<< (i + 1 - pb)) else val

/-- The `gf2_remainder` loop, `i` from 31 down to `poly_bits - 1`
(frame_decode.c:86). -/
def gf2_core (poly val : ℕ) : ℕ :=
  ((List.range (33 - bit_length poly)).map (fun k => 31 - k)).foldl
    (gf2_step poly (bit_length poly)) val

/-- `gf2_remainder` (frame_decode.c:82): remainder of `val` by the GF(2)
polynomial `poly`, with the early return for `val = 0`. -/
def gf2_remainder (poly val : ℕ) : ℕ :=
  if val = 0 then 0 else gf2_core poly val

theorem xor_mix (a b m : ℕ) : (a ^^^ m) ^^^ (b ^^^ m) = a ^^^ b := by
  apply Nat.eq_of_testBit_eq
  intro i
  simp only [Nat.testBit_xor]
  cases a.testBit i <;> cases b.testBit i <;> cases m.testBit i <;> rfl

theorem gf2_step_xor (poly pb i a b : ℕ) :
    gf2_step poly pb (a ^^^ b) i = gf2_step poly pb a i ^^^ gf2_step poly pb b i := by
  unfold gf2_step
  by_cases ha : a.testBit i <;> by_cases hb : b.testBit i <;>
    simp [Nat.testBit_xor, ha, hb] <;>
    (apply Nat.eq_of_testBit_eq
     intro j
     simp only [Nat.testBit_xor]
     cases a.testBit j <;> cases b.testBit j <;>
       cases (poly <<< (i + 1 - pb)).testBit j <;> rfl)

theorem gf2_foldl_xor (poly pb : ℕ) (l : List ℕ) (a b : ℕ) :
    l.foldl (gf2_step poly pb) (a ^^^ b) =
      l.foldl (gf2_step poly pb) a ^^^ l.foldl (gf2_step poly pb) b := by
  induction l generalizing a b with
  | nil => rfl
  | cons i is ih => rw [List.foldl_cons, List.foldl_cons, List.foldl_cons,
      gf2_step_xor, ih]

theorem gf2_core_zero (poly : ℕ) : gf2_core poly 0 = 0 := by
  unfold gf2_core
  generalize (List.range (33 - bit_length poly)).map (fun k => 31 - k) = l
  induction l with
  | nil => rfl
  | cons i is ih =>
      rw [List.foldl_cons]
      have h : gf2_step poly (bit_length poly) 0 i = 0 := by
        simp [gf2_step, Nat.zero_testBit]
      rw [h, ih]

theorem gf2_remainder_eq_core (poly val : ℕ) :
    gf2_remainder poly val = gf2_core poly val := by
  unfold gf2_remainder
  by_cases h : val = 0
  · simp [h, gf2_core_zero]
  · simp [h]

/-- `gf2_remainder` is GF(2)-linear: the remainder of an XOR is the XOR of
the remainders. -/
theorem gf2_remainder_xor (poly a b : ℕ) :
    gf2_remainder poly (a ^^^ b) = gf2_remainder poly a ^^^ gf2_remainder poly b := by
  simp only [gf2_remainder_eq_core]
  unfold gf2_core
  exact gf2_foldl_xor _ _ _ a b

/-! ## BCH syndrome lookup tables (frame_decode.c lines 95-135)

Table entries are `(errs, locator)`; `errs = -1` marks an uncorrectable
syndrome, exactly as in the C `struct { int errs; uint32_t locator; }`. -/

/-- Initialization loop of `build_syndrome_table` (frame_decode.c:101-104). -/
def syn_init (size : ℕ) : List (ℤ × ℕ) := List.replicate size (-1, 0)

/-- Body of the single-bit-error loop (frame_decode.c:108-113). -/
def syn_single_step (poly size : ℕ) (t : List (ℤ × ℕ)) (b1 : ℕ) : List (ℤ × ℕ) :=
  let val := 1 <<< b1
  let r := gf2_remainder poly val
  if r < size then t.set r (1, val) else t

/-- Single-bit-error loop of `build_syndrome_table` (frame_decode.c:107-114):
entries are written unconditionally in order `b1 = 0 .. nbits-1`. -/
def syn_add_single (poly nbits size : ℕ) (t : List (ℤ × ℕ)) : List (ℤ × ℕ) :=
  (List.range nbits).foldl (syn_single_step poly size) t

/-- Body of the two-bit-error loop (frame_decode.c:119-126). -/
def syn_double_step (poly size : ℕ) (t : List (ℤ × ℕ)) (p : ℕ × ℕ) : List (ℤ × ℕ) :=
  let val := (1 <<< p.1) ||| (1 <<< p.2)
  let r := gf2_remainder poly val
  if r < size ∧ (t.getD r (-1, 0)).1 < 0 then t.set r (2, val) else t

/-- Two-bit-error loop of `build_syndrome_table` (frame_decode.c:117-128):
entries are written only where still uncorrectable (`errs < 0`), in
lexicographic order of `(b1, b2)`. -/
def syn_add_double (poly nbits size : ℕ) (t : List (ℤ × ℕ)) : List (ℤ × ℕ) :=
  ((List.range nbits).bind (fun b1 =>
      (List.range' (b1 + 1) (nbits - (b1 + 1))).map (fun b2 => (b1, b2)))).foldl
    (syn_double_step poly size) t

/-- `build_syndrome_table` (frame_decode.c:95-129). -/
def build_syndrome_table (poly nbits size max_errors : ℕ) : List (ℤ × ℕ) :=
  let t := syn_add_single poly nbits size (syn_init size)
  if 2 ≤ max_errors then syn_add_double poly nbits size t else t

/-- `syn_ra`: 1024-entry table for BCH(31,21), poly 1207
(frame_decode.c:60,133). -/
def synRA : List (ℤ × ℕ) := build_syndrome_table 1207 31 1024 2

/-- `syn_hdr`: 16-entry table for BCH(7,3), poly 29 (frame_decode.c:62,134). -/
def synHDR : List (ℤ × ℕ) := build_syndrome_table 29 7 16 1

/-- Table indexing `syn[s]` with the C uncorrectable default. -/
def syn_lookup (t : List (ℤ × ℕ)) (s : ℕ) : ℤ × ℕ := t.getD s (-1, 0)

theorem getD_set_ne {α : Type} {l : List α} {i j : ℕ} {a d : α} (h : i ≠ j) :
    (l.set i a).getD j d = l.getD j d := by
  simp [List.getD, List.getElem?_set_ne h]

theorem getD_set_self {α : Type} {l : List α} {i : ℕ} {a d : α}
    (h : i < l.length) : (l.set i a).getD i d = a := by
  simp [List.getD, List.getElem?_set_self, h]

/-- Soundness of a syndrome table: every correctable entry's locator has
the entry's index as its remainder. -/
def syn_sound (poly : ℕ) (t : List (ℤ × ℕ)) : Prop :=
  ∀ s : ℕ, 0 ≤ (syn_lookup t s).1 → gf2_remainder poly (syn_lookup t s).2 = s

theorem syn_init_length (size : ℕ) : (syn_init size).length = size := by
  simp [syn_init]

theorem syn_init_lookup (size s : ℕ) : syn_lookup (syn_init size) s = (-1, 0) := by
  unfold syn_lookup syn_init
  rcases Nat.lt_or_ge s size with h | h
  · simp [List.getD, List.getElem?_replicate, h]
  · have : (List.replicate size ((-1 : ℤ), (0 : ℕ))).length ≤ s := by
      simpa using h
    simp [List.getD, List.getElem?_eq_none this]

theorem syn_init_sound (poly size : ℕ) : syn_sound poly (syn_init size) := by
  intro s hs
  rw [syn_init_lookup] at hs
  norm_num at hs

theorem syn_sound_set {poly : ℕ} {t : List (ℤ × ℕ)} (ht : syn_sound poly t)
    (r : ℕ) (e : ℤ × ℕ) (he : gf2_remainder poly e.2 = r) :
    syn_sound poly (t.set r e) := by
  intro s hs
  by_cases h : r = s
  · subst h
    by_cases hlen : r < t.length
    · rw [syn_lookup, getD_set_self hlen] at hs ⊢
      exact he
    · rw [List.set_eq_of_length_le (by omega)] at hs ⊢
      exact ht r hs
  · rw [syn_lookup, getD_set_ne h] at hs ⊢
    exact ht s hs

theorem syn_add_single_sound {poly nbits size : ℕ} {t : List (ℤ × ℕ)}
    (ht : syn_sound poly t) : syn_sound poly (syn_add_single poly nbits size t) := by
  unfold syn_add_single
  generalize List.range nbits = l
  induction l generalizing t with
  | nil => exact ht
  | cons b bs ih =>
      rw [List.foldl_cons]
      apply ih
      unfold syn_single_step
      by_cases h : gf2_remainder poly (1 <<< b) < size
      · rw [if_pos h]
        exact syn_sound_set ht _ _ rfl
      · rw [if_neg h]
        exact ht

theorem syn_add_double_sound {poly nbits size : ℕ} {t : List (ℤ × ℕ)}
    (ht : syn_sound poly t) : syn_sound poly (syn_add_double poly nbits size t) := by
  unfold syn_add_double
  generalize (List.range nbits).bind (fun b1 =>
      (List.range' (b1 + 1) (nbits - (b1 + 1))).map (fun b2 => (b1, b2))) = l
  induction l generalizing t with
  | nil => exact ht
  | cons p ps ih =>
      rw [List.foldl_cons]
      apply ih
      unfold syn_double_step
      by_cases h : gf2_remainder poly ((1 <<< p.1) ||| (1 <<< p.2)) < size ∧
          ((t.getD (gf2_remainder poly ((1 <<< p.1) ||| (1 <<< p.2))) (-1, 0)).1 < 0)
      · rw [if_pos h]
        exact syn_sound_set ht _ _ rfl
      · rw [if_neg h]
        exact ht

/-- The `syn_ra` table is sound: whenever it marks a syndrome correctable,
XOR-ing the stored locator cancels exactly that syndrome. -/
theorem synRA_sound : syn_sound 1207 synRA := by
  unfold synRA build_syndrome_table
  norm_num
  exact syn_add_double_sound (syn_add_single_sound (syn_init_sound 1207 1024))

/-- The `syn_hdr` table is sound. -/
theorem synHDR_sound : syn_sound 29 synHDR := by
  unfold synHDR build_syndrome_table
  norm_num
  exact syn_add_single_sound (syn_init_sound 29 16)

theorem syn_single_step_length (poly size : ℕ) (t : List (ℤ × ℕ)) (b : ℕ) :
    (syn_single_step poly size t b).length = t.length := by
  simp only [syn_single_step]
  split <;> simp

set_option maxRecDepth 100000 in
/-- The 31 single-bit syndromes of poly 1207 all fit the 1024-entry table. -/
theorem synRA_single_bounds :
    ∀ k < 31, gf2_remainder 1207 (1 <<< k) < 1024 := by decide

set_option maxRecDepth 100000 in
/-- The 31 single-bit syndromes of poly 1207 are pairwise distinct. -/
theorem synRA_single_inj :
    ∀ k < 31, ∀ j < 31,
      gf2_remainder 1207 (1 <<< k) = gf2_remainder 1207 (1 <<< j) → k = j := by
  decide

theorem syn_single_fold_entries {poly size : ℕ} (nbits : ℕ)
    (hb : ∀ k < nbits, gf2_remainder poly (1 <<< k) < size)
    (hinj : ∀ k < nbits, ∀ j < nbits,
      gf2_remainder poly (1 <<< k) = gf2_remainder poly (1 <<< j) → k = j) :
    ∀ n ≤ nbits, ∀ t : List (ℤ × ℕ), t.length = size →
      ((List.range n).foldl (syn_single_step poly size) t).length = size ∧
      ∀ k < n, syn_lookup ((List.range n).foldl (syn_single_step poly size) t)
          (gf2_remainder poly (1 <<< k)) = ((1 : ℤ), 1 <<< k) := by
  intro n
  induction n with
  | zero =>
      intro _ t ht
      refine ⟨by simpa using ht, ?_⟩
      intro k hk
      omega
  | succ n ih =>
      intro hn t ht
      obtain ⟨ihlen, ihent⟩ := ih (by omega) t ht
      rw [List.range_succ, List.foldl_append, List.foldl_cons, List.foldl_nil]
      set t' := (List.range n).foldl (syn_single_step poly size) t with ht'
      have hstep : syn_single_step poly size t' n =
          t'.set (gf2_remainder poly (1 <<< n)) (1, 1 <<< n) := by
        unfold syn_single_step
        rw [if_pos (hb n (by omega))]
      rw [hstep]
      constructor
      · simp [ihlen]
      · intro k hk
        by_cases hkn : k = n
        · subst hkn
          unfold syn_lookup
          rw [getD_set_self (by rw [ihlen]; exact hb k (by omega))]
        · have hne : gf2_remainder poly (1 <<< n) ≠ gf2_remainder poly (1 <<< k) := by
            intro he
            exact hkn (hinj n (by omega) k (by omega) he).symm
          unfold syn_lookup
          rw [getD_set_ne hne]
          exact ihent k (by omega)

theorem syn_add_double_preserve {poly nbits size : ℕ} {t : List (ℤ × ℕ)}
    {s : ℕ} {e : ℤ × ℕ} (h : syn_lookup t s = e) (he : 0 ≤ e.1) :
    syn_lookup (syn_add_double poly nbits size t) s = e := by
  unfold syn_add_double
  generalize (List.range nbits).bind (fun b1 =>
      (List.range' (b1 + 1) (nbits - (b1 + 1))).map (fun b2 => (b1, b2))) = l
  induction l generalizing t with
  | nil => exact h
  | cons p ps ih =>
      rw [List.foldl_cons]
      apply ih
      unfold syn_double_step
      by_cases hc : gf2_remainder poly ((1 <<< p.1) ||| (1 <<< p.2)) < size ∧
          ((t.getD (gf2_remainder poly ((1 <<< p.1) ||| (1 <<< p.2))) (-1, 0)).1 < 0)
      · rw [if_pos hc]
        have hne : gf2_remainder poly ((1 <<< p.1) ||| (1 <<< p.2)) ≠ s := by
          intro heq
          rw [heq] at hc
          have : (syn_lookup t s).1 < 0 := hc.2
          rw [h] at this
          omega
        unfold syn_lookup
        rw [getD_set_ne hne]
        exact h
      · rw [if_neg hc]
        exact h

/-- The `syn_ra` table records every single-bit error pattern: at the
syndrome of a weight-one error `1 << k` it stores error count 1 and the
locator `1 << k`. -/
theorem synRA_single_entry :
    ∀ k < 31, syn_lookup synRA (gf2_remainder 1207 (1 <<< k)) = ((1 : ℤ), 1 <<< k) := by
  intro k hk
  unfold synRA build_syndrome_table
  norm_num
  apply syn_add_double_preserve (e := ((1 : ℤ), 1 <<< k)) _ (by norm_num)
  exact (syn_single_fold_entries 31 synRA_single_bounds synRA_single_inj 31
    (le_refl 31) (syn_init 1024) (syn_init_length 1024)).2 k hk

/-! ## De-interleaving (frame_decode.c lines 156-215)

The C loops walk symbol indices downward (31,29,..,1 / 30,28,..,0 for the
two-way split; 47,44,..,2 / 46,..,1 / 45,..,0 for the three-way split) and
copy the two bits of each symbol. -/

/-- Symbol order of the first `de_interleave` loop (frame_decode.c:165):
odd symbol indices in reverse. -/
def dil_odd : List ℕ := (List.range 16).map (fun j => 31 - 2 * j)

/-- Symbol order of the second `de_interleave` loop (frame_decode.c:172):
even symbol indices in reverse. -/
def dil_even : List ℕ := (List.range 16).map (fun j => 30 - 2 * j)

/-- `de_interleave` (frame_decode.c:156): 64 input bits to two 32-bit
outputs. -/
def de_interleave (inb : List ℕ) : List ℕ × List ℕ :=
  (dil_odd.bind (fun s => [inb.getD (2 * s) 0, inb.getD (2 * s + 1) 0]),
   dil_even.bind (fun s => [inb.getD (2 * s) 0, inb.getD (2 * s + 1) 0]))

/-- Symbol orders of the three `de_interleave3` loops (frame_decode.c:187-198). -/
def dil3_first : List ℕ := (List.range 16).map (fun j => 47 - 3 * j)

def dil3_second : List ℕ := (List.range 16).map (fun j => 46 - 3 * j)

def dil3_third : List ℕ := (List.range 16).map (fun j => 45 - 3 * j)

/-- `de_interleave3` (frame_decode.c:178): 96 input bits to three 32-bit
outputs. -/
def de_interleave3 (inb : List ℕ) : List ℕ × List ℕ × List ℕ :=
  (dil3_first.bind (fun s => [inb.getD (2 * s) 0, inb.getD (2 * s + 1) 0]),
   dil3_second.bind (fun s => [inb.getD (2 * s) 0, inb.getD (2 * s + 1) 0]),
   dil3_third.bind (fun s => [inb.getD (2 * s) 0, inb.getD (2 * s + 1) 0]))

/-- `de_interleave_llr` (frame_decode.c:203): the same permutation applied
to the per-bit reliability vector. -/
def de_interleave_llr (inl : List ℚ) : List ℚ × List ℚ :=
  (dil_odd.bind (fun s => [inl.getD (2 * s) 0, inl.getD (2 * s + 1) 0]),
   dil_even.bind (fun s => [inl.getD (2 * s) 0, inl.getD (2 * s + 1) 0]))

/-- The three-way LLR de-interleave written inline in `frame_decode`
(frame_decode.c:523-537). -/
def de_interleave3_llr (inl : List ℚ) : List ℚ × List ℚ × List ℚ :=
  (dil3_first.bind (fun s => [inl.getD (2 * s) 0, inl.getD (2 * s + 1) 0]),
   dil3_second.bind (fun s => [inl.getD (2 * s) 0, inl.getD (2 * s + 1) 0]),
   dil3_third.bind (fun s => [inl.getD (2 * s) 0, inl.getD (2 * s + 1) 0]))

/-- Inverse of `de_interleave`: input symbol `s` sits in stream 1 at pair
position `(31-s)/2` when `s` is odd, in stream 2 at `(30-s)/2` when even. -/
def interleave2_inv (o1 o2 : List ℕ) : List ℕ :=
  (List.range 32).bind (fun s =>
    if s % 2 = 1 then
      [o1.getD (2 * ((31 - s) / 2)) 0, o1.getD (2 * ((31 - s) / 2) + 1) 0]
    else
      [o2.getD (2 * ((30 - s) / 2)) 0, o2.getD (2 * ((30 - s) / 2) + 1) 0])

/-- Inverse of `de_interleave3`, by residue of the symbol index mod 3. -/
def interleave3_inv (o1 o2 o3 : List ℕ) : List ℕ :=
  (List.range 48).bind (fun s =>
    if s % 3 = 2 then
      [o1.getD (2 * ((47 - s) / 3)) 0, o1.getD (2 * ((47 - s) / 3) + 1) 0]
    else if s % 3 = 1 then
      [o2.getD (2 * ((46 - s) / 3)) 0, o2.getD (2 * ((46 - s) / 3) + 1) 0]
    else
      [o3.getD (2 * ((45 - s) / 3)) 0, o3.getD (2 * ((45 - s) / 3) + 1) 0])

theorem map_getD_range {α : Type} (l : List α) (d : α) :
    (List.range l.length).map (fun i => l.getD i d) = l := by
  induction l with
  | nil => rfl
  | cons x xs ih =>
      rw [List.length_cons, List.range_succ_eq_map, List.map_cons, List.map_map]
      refine List.cons_eq_cons.mpr ⟨rfl, ?_⟩
      have hfun : ∀ i ∈ List.range xs.length,
          ((fun i => (x :: xs).getD i d) ∘ Nat.succ) i = xs.getD i d :=
        fun i _ => rfl
      rw [List.map_congr_left hfun, ih]

/-! ## Parity gate (frame_decode.c lines 394-402) -/

/-- `check_parity32` (frame_decode.c:394): even overall weight across the
data bits, the BCH check bits, and the final parity bit `block32[31]`. -/
def check_parity32 (block32 bch_data bch_check : List ℕ) : Bool :=
  (bch_data.sum + bch_check.sum + block32.getD 31 0) % 2 == 0

/-! ## Chase BCH(31,21) decoder (frame_decode.c lines 224-295) -/

/-- The standard BCH attempt shared by both accept sites of
`chase_bch_decode_p` (frame_decode.c:228-242 and 280-291): zero syndrome
accepts as-is, a correctable syndrome XORs in the stored locator.
Returns `(errs, corrected 31-bit word)`. -/
def bch_try_ra (val : ℕ) : Option (ℤ × ℕ) :=
  if gf2_remainder 1207 val = 0 then some (0, val)
  else if gf2_remainder 1207 val < 1024 ∧
      0 ≤ (syn_lookup synRA (gf2_remainder 1207 val)).1 then
    some ((syn_lookup synRA (gf2_remainder 1207 val)).1,
      val ^^^ (syn_lookup synRA (gf2_remainder 1207 val)).2)
  else none

set_option maxRecDepth 4000 in
/-- A successful standard BCH attempt always outputs a word with zero
residual syndrome. -/
theorem bch_try_ra_zero_syndrome {val : ℕ} {e : ℤ} {v : ℕ}
    (h : bch_try_ra val = some (e, v)) : gf2_remainder 1207 v = 0 := by
  unfold bch_try_ra at h
  by_cases h0 : gf2_remainder 1207 val = 0
  · rw [if_pos h0] at h
    cases Option.some.inj h
    exact h0
  · rw [if_neg h0] at h
    by_cases h1 : gf2_remainder 1207 val < 1024 ∧
        0 ≤ (syn_lookup synRA (gf2_remainder 1207 val)).1
    · rw [if_pos h1] at h
      have hs := synRA_sound (gf2_remainder 1207 val) h1.2
      generalize hE : syn_lookup synRA (gf2_remainder 1207 val) = E at h hs
      cases Option.some.inj h
      rw [gf2_remainder_xor, hs, Nat.xor_self]
    · rw [if_neg h1] at h
      exact absurd h (by simp)

/-- Inner scan of the partial selection sort (frame_decode.c:256-259):
index of the least-reliable position among `pos[i..30]`, ties keeping the
earliest index, exactly like the C `min_idx` loop. -/
def argmin_scan (llr : List ℚ) (pos : List ℕ) (i : ℕ) : ℕ :=
  (List.range' (i + 1) (30 - i)).foldl
    (fun best j =>
      if llr.getD (pos.getD j 0) 0 < llr.getD (pos.getD best 0) 0 then j
      else best) i

/-- The partial selection sort of `chase_bch_decode_p`
(frame_decode.c:250-263): five rounds of find-min-and-swap over the
position array `pos = [0..30]`. -/
def selsort5 (llr : List ℚ) : List ℕ :=
  (List.range 5).foldl
    (fun pos i =>
      let m := argmin_scan llr pos i
      let a := pos.getD i 0
      let b := pos.getD m 0
      (pos.set i b).set m a)
    (List.range 31)

/-- Flip masks for the five least-reliable positions
(frame_decode.c:267-269): `flip_mask[i] = 1 << (30 - pos[i])`. -/
def flip_masks (llr : List ℚ) : List ℕ :=
  ((selsort5 llr).take 5).map (fun p => 1 <<< (30 - p))

/-- Application of one flip combination (frame_decode.c:274-278). -/
def apply_flips (fm : List ℕ) (mask base : ℕ) : ℕ :=
  (List.range 5).foldl
    (fun v b => if mask.testBit b then v ^^^ fm.getD b 0 else v) base

/-- `chase_bch_decode_p` (frame_decode.c:224-295), returning
`(errs, corrected 31-bit word)`; the C stores the word as
`out_data = word >> 10` (21 bits) and `out_check = word & 0x3FF` (10 bits).
Standard BCH first; if that fails and soft info is present, try all 31
non-zero flip combinations of the five least-reliable positions. -/
def chase_bch_decode_p (block32 : List ℕ) (llr32 : Option (List ℚ)) :
    Option (ℤ × ℕ) :=
  match bch_try_ra (bits_to_uint (block32.take 31)) with
  | some r => some r
  | none =>
      match llr32 with
      | none => none
      | some llr =>
          (List.range' 1 31).findSome? (fun mask =>
            bch_try_ra
              (apply_flips (flip_masks llr) mask (bits_to_uint (block32.take 31))))

/-- Whatever path `chase_bch_decode_p` succeeds through, the corrected
word has zero residual BCH syndrome. -/
theorem chase_zero_syndrome {block32 : List ℕ} {llr32 : Option (List ℚ)}
    {e : ℤ} {v : ℕ} (h : chase_bch_decode_p block32 llr32 = some (e, v)) :
    gf2_remainder 1207 v = 0 := by
  unfold chase_bch_decode_p at h
  rcases h0 : bch_try_ra (bits_to_uint (block32.take 31)) with _ | r
  · rw [h0] at h
    rcases llr32 with _ | llr
    · simp at h
    · simp only at h
      obtain ⟨mask, _, hm⟩ := List.exists_of_findSome?_eq_some h
      exact bch_try_ra_zero_syndrome hm
  · rw [h0] at h
    simp only [Option.some_inj] at h
    rw [h] at h0
    exact bch_try_ra_zero_syndrome h0

/-- `out_data`: the 21 data bits of a corrected word,
`uint_to_bits(val >> 10, 21)` (frame_decode.c:232 etc.). -/
def bch_out_data (v : ℕ) : List ℕ := uint_to_bits (v >>> 10) 21

/-- `out_check`: the 10 BCH check bits of a corrected word,
`uint_to_bits(val & 0x3FF, 10)` (frame_decode.c:233 etc.). -/
def bch_out_check (v : ℕ) : List ℕ := uint_to_bits (v % 1024) 10

/-! ## Field extraction (frame_decode.c lines 299-388) -/

/-- `extract_uint` (frame_decode.c:309): `val = (val << 1) | bits[i]` over
`n` bits starting at `off`. -/
def extract_uint (bits : List ℕ) (off n : ℕ) : ℕ :=
  (List.range' off n).foldl (fun v i => (v <<< 1) ||| bits.getD i 0) 0

/-- `extract_signed12` (frame_decode.c:299): sign bit then 11 magnitude
bits; a set sign bit subtracts `1 << 11`. -/
def extract_signed12 (bits : List ℕ) (off : ℕ) : ℤ :=
  let mag := (List.range' (off + 1) 11).foldl
    (fun m i => (m <<< 1) ||| bits.getD i 0) 0
  if bits.getD off 0 ≠ 0 then (mag : ℤ) - 2048 else (mag : ℤ)

/-- One IRA paging entry: 32-bit TMSI and 5-bit MSC id. -/
structure IraPage where
  tmsi : ℕ
  msc_id : ℕ
  deriving Repr, DecidableEq

/-- Paging-block loop of `parse_ira` (frame_decode.c:340-360): 42-bit
blocks from bit 63 up, an all-ones block terminates, at most 12 pages.
The C `n_pages < 12` bound is the fuel argument. The TMSI accumulation
`tmsi = (tmsi << 1) | page[i]` is on a `uint32_t`, hence the `% 2^32`. -/
def parse_pages (bch_data : List ℕ) : ℕ → ℕ → List IraPage
  | 0, _ => []
  | fuel + 1, offset =>
      if offset + 42 ≤ bch_data.length then
        if (List.range 42).all (fun i => bch_data.getD (offset + i) 0 != 0) then []
        else
          { tmsi := (List.range 32).foldl
              (fun t i => ((t <<< 1) % 4294967296) ||| bch_data.getD (offset + i) 0) 0,
            msc_id := extract_uint bch_data (offset + 34) 5 } ::
            parse_pages bch_data fuel (offset + 42)
      else []

/-- IRA frame contents. The C struct stores `lat/lon` (`double`) and `alt`
(`int`) computed from the XYZ fields; here the record keeps the raw 12-bit
signed XYZ values and the geodetic outputs are the functions
`ira_lat/ira_lon/ira_alt` applied to them (defined with the theorems on
claim C1). -/
structure IraData where
  sat_id : ℕ
  beam_id : ℕ
  x : ℤ
  y : ℤ
  z : ℤ
  pages : List IraPage
  deriving Repr, DecidableEq

/-- `parse_ira` (frame_decode.c:317-361): the `memset` plus the
`n_bits < 63` early return give the all-zero record. -/
def parse_ira (bch_data : List ℕ) : IraData :=
  if bch_data.length < 63 then ⟨0, 0, 0, 0, 0, []⟩
  else
    { sat_id := extract_uint bch_data 0 7
      beam_id := extract_uint bch_data 7 6
      x := extract_signed12 bch_data 13
      y := extract_signed12 bch_data 25
      z := extract_signed12 bch_data 37
      pages := parse_pages bch_data 12 63 }

/-- IBC frame contents (frame_decode.h / frame_decode.c:363-388). -/
structure IbcData where
  bc_type : ℕ
  sat_id : ℕ
  beam_id : ℕ
  timeslot : ℕ
  sv_blocking : ℕ
  iri_time : ℕ
  deriving Repr, DecidableEq

/-- `parse_ibc` (frame_decode.c:363-388). Block 1 is the first 42 data
bits; when at least 84 data bits are present the 6-bit type field at bit 42
is read and, when it equals 1, the Iridium time counter is accumulated from
bits 52..83 (`for (i = 52; i < 84; i++)`) into a `uint32_t`. -/
def parse_ibc (bch_data : List ℕ) (hdr_type : ℕ) : IbcData :=
  if bch_data.length < 42 then ⟨hdr_type, 0, 0, 0, 0, 0⟩
  else
    { bc_type := hdr_type
      sat_id := extract_uint bch_data 0 7
      beam_id := extract_uint bch_data 7 6
      timeslot := bch_data.getD 14 0
      sv_blocking := bch_data.getD 15 0
      iri_time :=
        if 84 ≤ bch_data.length then
          if extract_uint bch_data 42 6 = 1 then
            (List.range' 52 32).foldl
              (fun t i => ((t <<< 1) % 4294967296) ||| bch_data.getD i 0) 0
          else 0
        else 0 }

/-! ## Main decode function (frame_decode.c lines 409-593) -/

/-- Access code patterns (frame_decode.c:51-56). -/
def access_dl : List ℕ := [0,0,1,1,0,0,0,0,0,0,1,1,0,0,0,0,1,1,1,1,0,0,1,1]

def access_ul : List ℕ := [1,1,0,0,1,1,0,0,0,0,1,1,1,1,0,0,1,1,1,1,1,1,0,0]

/-- Input to `frame_decode`: the demodulated bit array and the optional
per-bit soft reliabilities (`demod_frame_t.bits` / `.llr`); `n_bits` is the
list length. -/
structure DemodFrame where
  bits : List ℕ
  llr : Option (List ℚ)

/-- One de-interleaved 32-bit block as used by the decode chain: the raw
block, the chase error count, and the corrected 31-bit codeword `word`
(whose bits the C appends as `out_data`/`out_check`). -/
structure BlockInfo where
  raw : List ℕ
  errs : ℤ
  word : ℕ
  deriving Repr, DecidableEq

/-- The 21 data bits the C copies into `bch_stream` for this block. -/
def blk_data (b : BlockInfo) : List ℕ := bch_out_data b.word

/-- The 10 BCH check bits of this block. -/
def blk_check (b : BlockInfo) : List ℕ := bch_out_check b.word

/-- Decoded-frame variant (`decoded_frame_t`), instrumented with the list
of 32-bit blocks the decode actually used, in order; the C's `bch_stream`
is exactly the concatenation of their 21-bit data fields. -/
inductive DecodedFrame where
  | ira (data : IraData) (blocks : List BlockInfo)
  | ibc (data : IbcData) (blocks : List BlockInfo)
  deriving Repr, DecidableEq

/-- The used-block trace of a decoded frame. -/
def DecodedFrame.blocks : DecodedFrame → List BlockInfo
  | .ira _ bs => bs
  | .ibc _ bs => bs

/-- One 64-bit chunk through de-interleave, chase BCH and the parity gate
(the repeated pattern at frame_decode.c:454-470, 487-496 and 569-578).
Fails if either block is uncorrectable or either parity check fails. -/
def decode_block_pair (chunk : List ℕ) (llr : Option (List ℚ)) :
    Option (BlockInfo × BlockInfo) :=
  let di1 := (de_interleave chunk).1
  let di2 := (de_interleave chunk).2
  let li1 : Option (List ℚ) := llr.map (fun l => (de_interleave_llr l).1)
  let li2 : Option (List ℚ) := llr.map (fun l => (de_interleave_llr l).2)
  match chase_bch_decode_p di1 li1, chase_bch_decode_p di2 li2 with
  | some (e1, v1), some (e2, v2) =>
      if check_parity32 di1 (bch_out_data v1) (bch_out_check v1) &&
         check_parity32 di2 (bch_out_data v2) (bch_out_check v2)
      then some (⟨di1, e1, v1⟩, ⟨di2, e2, v2⟩)
      else none
  | _, _ => none

/-- Chunk offsets visited by a `while (offset + 64 <= limit)` loop that
advances by 64. -/
def chunk_starts (offset limit : ℕ) : List ℕ :=
  (List.range ((limit - offset) / 64)).map (fun i => offset + 64 * i)

/-- The trailing-block loops (frame_decode.c:486-502 and 568-584): decode
64-bit chunks while the stream capacity allows (`bch_len + 42 <= cap`) and
stop at the first BCH or parity failure. -/
def decode_chain (data : List ℕ) (llr : Option (List ℚ)) :
    List ℕ → ℕ → ℕ → List (BlockInfo × BlockInfo)
  | [], _, _ => []
  | o :: rest, bch_len, cap =>
      if bch_len + 42 ≤ cap then
        match decode_block_pair ((data.drop o).take 64)
            (llr.map (fun l => (l.drop o).take 64)) with
        | none => []
        | some pr => pr :: decode_chain data llr rest (bch_len + 42) cap
      else []

/-- The IBC attempt of `frame_decode` (frame_decode.c:436-509): BCH(7,3)
header with correction, first 64-bit chunk must pass, then trailing chunks
up to offset 262 and stream capacity 256. -/
def frame_try_ibc (data : List ℕ) (llr : Option (List ℚ)) : Option DecodedFrame :=
  if 70 ≤ data.length then
    match (if gf2_remainder 29 (bits_to_uint (data.take 6)) = 0 then
        some (bits_to_uint (data.take 6))
      else if gf2_remainder 29 (bits_to_uint (data.take 6)) < 16 ∧
          0 ≤ (syn_lookup synHDR (gf2_remainder 29 (bits_to_uint (data.take 6)))).1 then
        some (bits_to_uint (data.take 6) ^^^
          (syn_lookup synHDR (gf2_remainder 29 (bits_to_uint (data.take 6)))).2)
      else none) with
    | none => none
    | some hv =>
        match decode_block_pair ((data.drop 6).take 64)
            (llr.map (fun l => (l.drop 6).take 64)) with
        | none => none
        | some (b1, b2) =>
            let chain := decode_chain data llr
              (chunk_starts 70 (min 262 data.length)) 42 256
            let blocks := b1 :: b2 :: (chain.bind (fun p => [p.1, p.2]))
            let stream := (blocks.map blk_data).join
            some (.ibc (parse_ibc stream (extract_uint (uint_to_bits (hv >>> 4) 3) 0 3))
              blocks)
  else none

/-- The IRA attempt of `frame_decode` (frame_decode.c:517-590): the first
96 bits de-interleave3 into three blocks that must all pass chase BCH and
parity, then trailing chunks with stream capacity 512. -/
def frame_try_ira (data : List ℕ) (llr : Option (List ℚ)) : Option DecodedFrame :=
  if 96 ≤ data.length then
    match chase_bch_decode_p (de_interleave3 data).1
        (llr.map (fun l => (de_interleave3_llr l).1)),
      chase_bch_decode_p (de_interleave3 data).2.1
        (llr.map (fun l => (de_interleave3_llr l).2.1)),
      chase_bch_decode_p (de_interleave3 data).2.2
        (llr.map (fun l => (de_interleave3_llr l).2.2)) with
    | some (e1, v1), some (e2, v2), some (e3, v3) =>
        if check_parity32 (de_interleave3 data).1 (bch_out_data v1) (bch_out_check v1) &&
           check_parity32 (de_interleave3 data).2.1 (bch_out_data v2) (bch_out_check v2) &&
           check_parity32 (de_interleave3 data).2.2 (bch_out_data v3) (bch_out_check v3) then
          let chain := decode_chain data llr (chunk_starts 96 data.length) 63 512
          let blocks := ⟨(de_interleave3 data).1, e1, v1⟩ ::
            ⟨(de_interleave3 data).2.1, e2, v2⟩ ::
            ⟨(de_interleave3 data).2.2, e3, v3⟩ ::
            (chain.bind (fun p => [p.1, p.2]))
          let stream := (blocks.map blk_data).join
          some (.ira (parse_ira stream) blocks)
        else none
    | _, _, _ => none
  else none

/-- `frame_decode` (frame_decode.c:409-593). `none` models `return 0` with
`out->type = FRAME_UNKNOWN`. -/
def frame_decode (f : DemodFrame) : Option DecodedFrame :=
  if f.bits.length < 24 then none
  else if f.bits.take 24 ≠ access_dl ∧ f.bits.take 24 ≠ access_ul then none
  else
    match frame_try_ibc (f.bits.drop 24) (f.llr.map (fun l => l.drop 24)) with
    | some out => some out
    | none => frame_try_ira (f.bits.drop 24) (f.llr.map (fun l => l.drop 24))

/-- The access-code gate of `frame_decode` (frame_decode.c:419-426): the
decode proceeds past it iff at least 24 bits are present and the first 24
match one of the two patterns exactly. -/
def frame_access_gate (bits : List ℕ) : Bool :=
  if bits.length < 24 then false
  else (bits.take 24 == access_dl) || (bits.take 24 == access_ul)

/-- The entry gate of `ida_decode` (ida_decode.c:286-297): the minimum
length check `n_bits < 24 + 46 + 124` comes before the access-code
comparison; the decode proceeds to the LCW only past both. -/
def ida_access_gate (bits : List ℕ) : Bool :=
  if bits.length < 24 + 46 + 124 then false
  else (bits.take 24 == access_dl) || (bits.take 24 == access_ul)

/-! ## QPSK demodulator: unique-word verification and output assembly
(src/qpsk_demod.c) -/

/-- `ir_direction_t`. -/
inductive Direction where
  | downlink
  | uplink
  | undef
  deriving Repr, DecidableEq

/-- `IR_UW_DL` (iridium.h:30). -/
def IR_UW_DL : List ℤ := [0, 2, 2, 2, 2, 0, 0, 0, 2, 0, 0, 2]

/-- `IR_UW_UL` (iridium.h:31). -/
def IR_UW_UL : List ℤ := [2, 2, 0, 0, 0, 2, 0, 0, 2, 0, 2, 2]

/-- Unique-word selection in both sync checks (qpsk_demod.c:282,303):
`(direction == DIR_DOWNLINK) ? IR_UW_DL : IR_UW_UL`. -/
def uw_of (dir : Direction) : List ℤ :=
  if dir = Direction.downlink then IR_UW_DL else IR_UW_UL

/-- `check_sync_word` (qpsk_demod.c:277-293): fewer than 12 symbols is a
fail; otherwise accumulate per-symbol differences `|s - uw|`, counting a
3-step difference as 1 (wraparound), and accept iff the total is at most
`UW_MAX_ERRORS = 2`. -/
def check_sync_word (symbols : List ℤ) (dir : Direction) : Bool :=
  if symbols.length < 12 then false
  else
    decide (((List.range 12).foldl
      (fun d i =>
        d + (if (symbols.getD i 0 - (uw_of dir).getD i 0).natAbs = 3 then 1
             else (symbols.getD i 0 - (uw_of dir).getD i 0).natAbs)) 0) ≤ 2)

/-- The wrap-aware per-symbol distance of the spec: a 3-step difference
counts as 1. -/
def sym_wrap_dist (a b : ℤ) : ℕ :=
  if (a - b).natAbs = 3 then 1 else (a - b).natAbs

/-- Total wrap-aware distance between the first 12 symbols and a unique
word. -/
def uw_distance (symbols uw : List ℤ) : ℕ :=
  ((symbols.take 12).zipWith sym_wrap_dist uw).sum

/-- The length guard of `soft_check_sync_word` (qpsk_demod.c:299-301):
fewer than 12 symbols returns the sentinel 999.0, which always exceeds the
soft threshold 3.0. The trigonometric accumulation over the PLL output for
`n ≥ 12` is abstracted as the parameter `err` (no claim depends on its
value, only on the guard). -/
def soft_check_result (n : ℕ) (err : ℚ) : ℚ :=
  if n < 12 then 999 else err

/-- Step 4 of `qpsk_demod` (qpsk_demod.c:428-460): hard unique-word check
in both directions; if both fail, the soft-decision rescue with threshold
`UW_SOFT_THRESHOLD = 3.0`; on success the direction is updated. `none`
models the `return 0` rejection. -/
def uw_gate (symbols : List ℤ) (dl_err ul_err : ℚ) (dir0 : Direction) :
    Option Direction :=
  let dl_ok := check_sync_word symbols Direction.downlink
  let ul_ok := check_sync_word symbols Direction.uplink
  if ¬dl_ok ∧ ¬ul_ok then
    let de := soft_check_result symbols.length dl_err
    let ue := soft_check_result symbols.length ul_err
    if (if de < ue then de else ue) > 3 then none
    else some (if ue < de then Direction.uplink else Direction.downlink)
  else
    some (if ul_ok ∧ ¬dl_ok then Direction.uplink
          else if dl_ok ∧ ¬ul_ok then Direction.downlink
          else dir0)

/-- `dqpsk_map` (qpsk_demod.c:46). -/
def dqpsk_map : List ℕ := [0, 2, 3, 1]

/-- `decode_dqpsk` (qpsk_demod.c:264-273): in-place differential decode,
`out[i] = map[(s[i] - old + 4) % 4]` with `old` starting at 0. -/
def decode_dqpsk (symbols : List ℤ) : List ℕ :=
  (symbols.foldl
    (fun (st : ℤ × List ℕ) s =>
      (s, st.2 ++ [dqpsk_map.getD ((s - st.1 + 4) % 4).toNat 0]))
    (0, [])).2

/-- `map_symbols_to_bits` (qpsk_demod.c:329-335): MSB first,
`bits[2i] = (sym >> 1) & 1`, `bits[2i+1] = sym & 1`. -/
def map_symbols_to_bits (symbols : List ℕ) : List ℕ :=
  symbols.bind (fun s => [(s >>> 1) % 2, s % 2])

/-- The demod frame fields relevant to the emitted record
(qpsk_demod.c:482-493). -/
structure DemodOut where
  direction : Direction
  n_symbols : ℕ
  n_payload_symbols : ℤ
  bits : List ℕ
  n_bits : ℕ
  deriving Repr, DecidableEq

/-- The tail of `qpsk_demod` (qpsk_demod.c:428-509) after hard decisions:
the unique-word gate, then DQPSK decode, symbol-to-bit mapping and output
assembly with `n_payload_symbols = actual_symbols - IR_UW_LENGTH` and
`n_bits = 2 * actual_symbols`. `symbols` is the surviving hard-decision
symbol list (`actual_symbols` entries). -/
def qpsk_demod_emit (symbols : List ℤ) (dl_err ul_err : ℚ) (dir0 : Direction) :
    Option DemodOut :=
  match uw_gate symbols dl_err ul_err dir0 with
  | none => none
  | some dir =>
      some { direction := dir
             n_symbols := symbols.length
             n_payload_symbols := (symbols.length : ℤ) - 12
             bits := map_symbols_to_bits (decode_dqpsk symbols)
             n_bits := 2 * symbols.length }

/-! ## Burst detector state machine (src/burst_detect.c)

Magnitude-squared bins, baselines, thresholds and masks are exact small
float values in the C; they are modelled as `ℚ`. The burst `magnitude` and
`noise` fields store the linear quantities the C feeds into `10*log10f`
(the dB conversion is strictly monotone and no claim refers to the dB
values). `ℚ` division by a zero baseline yields 0 where C would give inf;
detection only runs on primed baselines so no claim depends on it. -/

/-- `active_burst_t` (burst_detect.c:39-47). -/
structure ActiveBurst where
  id : ℕ
  start : ℕ
  stop : ℕ
  last_active : ℕ
  center_bin : ℕ
  magnitude : ℚ
  noise : ℚ
  deriving Repr, DecidableEq

/-- The detector state fields touched by frames (burst_detect.c:56-132). -/
structure DetState where
  fft_size : ℕ
  burst_pre_len : ℕ
  burst_post_len : ℕ
  burst_width : ℕ
  max_bursts : ℕ
  max_burst_len : ℕ
  history_size : ℕ
  threshold : ℚ
  baseline_history : List (List ℚ)
  baseline_sum : List ℚ
  history_index : ℕ
  history_primed : Bool
  relative_magnitude : List ℚ
  burst_mask : List ℚ
  bursts : List ActiveBurst
  new_bursts : List ActiveBurst
  gone_bursts : List ActiveBurst
  peaks : List (ℕ × ℚ)
  burst_id : ℕ
  index : ℕ
  squelch_count : ℕ
  deriving Repr, DecidableEq

/-- `update_filters_post` (burst_detect.c:410-426): when no bursts are
active or the update is forced, fold the current magnitude row into the
baseline ring (`sum := sum - evicted + new`), advance the cursor, and mark
primed when the ring wraps. -/
def update_filters_post (d : DetState) (mag : List ℚ) (force : Bool) : DetState :=
  if d.bursts.length = 0 ∨ force then
    let hist := d.baseline_history.getD d.history_index []
    let newsum := (List.range d.fft_size).map
      (fun i => d.baseline_sum.getD i 0 - hist.getD i 0 + mag.getD i 0)
    let hist2 := d.baseline_history.set d.history_index mag
    if d.history_index + 1 = d.history_size then
      { d with baseline_sum := newsum, baseline_history := hist2,
               history_index := 0, history_primed := true }
    else
      { d with baseline_sum := newsum, baseline_history := hist2,
               history_index := d.history_index + 1 }
  else d

/-- `update_bursts` (burst_detect.c:430-441): a burst stays live when the
relative magnitude at its center bin or either neighbour exceeds the
threshold. -/
def update_bursts (d : DetState) : DetState :=
  { d with bursts := d.bursts.map (fun b =>
      if (0 < b.center_bin ∧
            d.threshold < d.relative_magnitude.getD (b.center_bin - 1) 0) ∨
          d.threshold < d.relative_magnitude.getD b.center_bin 0 ∨
          (b.center_bin < d.fft_size - 1 ∧
            d.threshold < d.relative_magnitude.getD (b.center_bin + 1) 0)
      then { b with last_active := d.index } else b) }

/-- `mask_burst` (burst_detect.c:445-452): zero the mask on
`[center - width/2, center + width/2]`, clamped to the spectrum. -/
def mask_burst (fft_size burst_width : ℕ) (mask : List ℚ) (b : ActiveBurst) :
    List ℚ :=
  (List.range mask.length).map (fun i =>
    if b.center_bin - burst_width / 2 ≤ i ∧
        i ≤ min (b.center_bin + burst_width / 2) (fft_size - 1)
    then 0 else mask.getD i 0)

/-- `update_burst_mask` (burst_detect.c:454-458). -/
def update_burst_mask (d : DetState) : DetState :=
  let m := d.bursts.foldl (mask_burst d.fft_size d.burst_width)
    (List.replicate d.fft_size 1)
  { d with burst_mask := m }

/-- The length half of the retirement test (burst_detect.c:470-475):
`max_burst_len > 0` and `last_active - start > max_burst_len` (strict). -/
def burst_long_cond (d : DetState) (b : ActiveBurst) : Bool :=
  0 < d.max_burst_len ∧ d.max_burst_len < b.last_active - b.start

/-- The full retirement test (burst_detect.c:477):
`last_active + post_roll <= index` or the length condition. -/
def burst_gone_cond (d : DetState) (b : ActiveBurst) : Bool :=
  b.last_active + d.burst_post_len ≤ d.index ∨ burst_long_cond d b

/-- `delete_gone_bursts` (burst_detect.c:462-490): retired bursts get
`stop := index` and move to the gone queue in order; a length-triggered
retirement forces a baseline update in the same frame. -/
def delete_gone_bursts (d : DetState) (mag : List ℚ) : DetState :=
  let retired := d.bursts.filter (fun b => burst_gone_cond d b)
  let d' := { d with
    bursts := d.bursts.filter (fun b => ¬ burst_gone_cond d b),
    gone_bursts := d.gone_bursts ++ retired.map (fun b => { b with stop := d.index }) }
  if d.bursts.any (fun b => burst_long_cond d b) then update_filters_post d' mag true
  else d'

/-- `remove_peaks_around_bursts` (burst_detect.c:494-497). -/
def remove_peaks_around_bursts (d : DetState) : DetState :=
  let r := (List.range d.fft_size).map
    (fun i => d.relative_magnitude.getD i 0 * d.burst_mask.getD i 0)
  { d with relative_magnitude := r }

/-- `extract_peaks` (burst_detect.c:501-515): bins clear of the spectrum
edges whose relative magnitude exceeds the threshold, sorted by magnitude
descending (`peak_cmp_desc`). -/
def extract_peaks (d : DetState) : DetState :=
  let raw := ((List.range d.fft_size).filter (fun bin =>
      d.burst_width / 2 ≤ bin ∧ bin < d.fft_size - d.burst_width / 2 ∧
      d.threshold < d.relative_magnitude.getD bin 0)).map
    (fun bin => (bin, d.relative_magnitude.getD bin 0))
  { d with peaks := raw.mergeSort (fun a b => b.2 ≤ a.2) }

/-- One iteration of the burst-instantiation loop
(burst_detect.c:522-550): skip masked bins, otherwise create a burst with
`start = last_active = index - pre_roll`, push it to both the active and
the new list, and mask its bins. -/
def create_burst_step (d : DetState) (p : ℕ × ℚ) : DetState :=
  if d.burst_mask.getD p.1 0 = 0 then d
  else
    let b : ActiveBurst := {
      id := d.burst_id
      start := d.index - d.burst_pre_len
      stop := 0
      last_active := d.index - d.burst_pre_len
      center_bin := p.1
      magnitude := p.2
      noise := d.baseline_sum.getD p.1 0 }
    { d with burst_id := d.burst_id + 10,
             bursts := d.bursts ++ [b],
             new_bursts := d.new_bursts ++ [b],
             burst_mask := mask_burst d.fft_size d.burst_width d.burst_mask b }

/-- The burst-instantiation loop of `create_new_bursts`
(burst_detect.c:520-550), walking the peaks in magnitude order after
clearing this frame's new-burst list. -/
def create_burst_loop (d : DetState) : DetState :=
  d.peaks.foldl create_burst_step { d with new_bursts := [] }

/-- `create_new_bursts` (burst_detect.c:519-591) including the squelch
check: when the active count exceeds `max_bursts`, drop this frame's new
bursts, retire every burst not created this frame (`start != index -
pre_len`), clear the active list, bump the squelch counter by 3 and, at 10
or more, reset the baseline (primed flag, history, sums, counter).
Otherwise the counter decays by 1 with floor 0. -/
def create_new_bursts (d : DetState) : DetState :=
  let d1 := create_burst_loop d
  if 0 < d1.max_bursts ∧ d1.max_bursts < d1.bursts.length then
    let retired := d1.bursts.filter (fun b => b.start ≠ d1.index - d1.burst_pre_len)
    let d2 := { d1 with
      new_bursts := [],
      gone_bursts := d1.gone_bursts ++ retired.map (fun b => { b with stop := d1.index }),
      bursts := [] }
    let d3 := update_burst_mask d2
    if 10 ≤ d3.squelch_count + 3 then
      let zrow : List ℚ := List.replicate d3.fft_size 0
      let zhist : List (List ℚ) := List.replicate d3.history_size zrow
      { d3 with
        history_index := 0
        history_primed := false
        baseline_history := zhist
        baseline_sum := zrow
        squelch_count := 0 }
    else { d3 with squelch_count := d3.squelch_count + 3 }
  else
    { d1 with squelch_count := d1.squelch_count - 1 }

/-- `process_fft_frame` after the FFT and magnitude computation
(burst_detect.c:648-657): when the baseline is primed, run detection
(`update_filters_pre` computes `relative = magnitude / baseline_sum`),
then the closing baseline update with `force = 0`. -/
def detector_detect (d : DetState) (mag : List ℚ) : DetState :=
  let rel := (List.range d.fft_size).map
    (fun i => mag.getD i 0 / d.baseline_sum.getD i 0)
  update_burst_mask
    (delete_gone_bursts
      (extract_peaks
        (remove_peaks_around_bursts
          (update_bursts { d with relative_magnitude := rel })))
      mag)

def detector_frame (d : DetState) (mag : List ℚ) : DetState :=
  if d.history_primed then
    update_filters_post (create_new_bursts (detector_detect d mag)) mag false
  else
    update_filters_post d mag false

/-! ## IRA geodetic conversion (frame_decode.c lines 332-337)

The C computes with `double`; the model is over `ℝ`. `atan2` is the C
library function's case split. -/

/-- C library `atan2(y, x)`. -/
noncomputable def atan2 (y x : ℝ) : ℝ :=
  if 0 < x then Real.arctan (y / x)
  else if x < 0 ∧ 0 ≤ y then Real.arctan (y / x) + Real.pi
  else if x < 0 then Real.arctan (y / x) - Real.pi
  else if 0 < y then Real.pi / 2
  else if y < 0 then -(Real.pi / 2)
  else 0

/-- `ira->lat = atan2(z, sqrt(x*x + y*y)) * 180 / M_PI`
(frame_decode.c:333-334). -/
noncomputable def ira_lat (x y z : ℤ) : ℝ :=
  atan2 (z : ℝ) (Real.sqrt ((x : ℝ) ^ 2 + (y : ℝ) ^ 2)) * 180 / Real.pi

/-- `ira->lon = atan2(y, x) * 180 / M_PI` (frame_decode.c:335). -/
noncomputable def ira_lon (x y : ℤ) : ℝ :=
  atan2 (y : ℝ) (x : ℝ) * 180 / Real.pi

/-- `ira->alt = (int)(sqrt(x*x + y*y + z*z) * 4.0) - 6378 + 23`
(frame_decode.c:336-337); the `(int)` cast truncates, which on this
non-negative value is the floor. -/
noncomputable def ira_alt_real (x y z : ℤ) : ℤ :=
  ⌊Real.sqrt ((x : ℝ) ^ 2 + (y : ℝ) ^ 2 + (z : ℝ) ^ 2) * 4⌋ - 6378 + 23

/-- Executable form of the altitude: `⌊4√s⌋ = Nat.sqrt (16 s)`. -/
def ira_alt (x y z : ℤ) : ℤ :=
  (Nat.sqrt (16 * (x ^ 2 + y ^ 2 + z ^ 2).toNat) : ℤ) - 6378 + 23

/-- Modelled from the spec: the spec's altitude formula
`alt_km = round(4·√(x²+y²+z²)) − 6378 + 23` uses rounding where the code
truncates; kept for comparison with `ira_alt_real`. -/
noncomputable def ira_alt_spec_round (x y z : ℤ) : ℤ :=
  round (Real.sqrt ((x : ℝ) ^ 2 + (y : ℝ) ^ 2 + (z : ℝ) ^ 2) * 4) - 6378 + 23

theorem ira_alt_eq_real (x y z : ℤ) : ira_alt x y z = ira_alt_real x y z := by
  unfold ira_alt ira_alt_real
  have hnn : (0 : ℤ) ≤ x ^ 2 + y ^ 2 + z ^ 2 := by positivity
  have hcast : (((x ^ 2 + y ^ 2 + z ^ 2).toNat : ℕ) : ℝ) =
      (x : ℝ) ^ 2 + (y : ℝ) ^ 2 + (z : ℝ) ^ 2 := by
    calc (((x ^ 2 + y ^ 2 + z ^ 2).toNat : ℕ) : ℝ)
        = ((((x ^ 2 + y ^ 2 + z ^ 2).toNat : ℕ) : ℤ) : ℝ) := by norm_cast
      _ = (((x ^ 2 + y ^ 2 + z ^ 2) : ℤ) : ℝ) := by
            rw [Int.toNat_of_nonneg hnn]
      _ = (x : ℝ) ^ 2 + (y : ℝ) ^ 2 + (z : ℝ) ^ 2 := by push_cast; ring
  rw [← hcast]
  set n : ℕ := (x ^ 2 + y ^ 2 + z ^ 2).toNat
  have h4 : Real.sqrt (n : ℝ) * 4 = Real.sqrt ((16 * n : ℕ) : ℝ) := by
    push_cast
    rw [show ((16 : ℝ) * n) = 16 * (n : ℝ) from rfl,
      Real.sqrt_mul (by norm_num : (0 : ℝ) ≤ 16)]
    rw [show (16 : ℝ) = 4 ^ 2 by norm_num, Real.sqrt_sq (by norm_num : (0 : ℝ) ≤ 4)]
    ring
  rw [h4, Real.floor_real_sqrt_eq_nat_sqrt]

/-! ## Claim theorems -/

/-- C4: for a single-bit error at any position `k` in `0..30` of a
BCH(31,21) codeword (`gf2_remainder 1207 c = 0`), the computed syndrome
equals `gf2_remainder(1207, 1 << k)`, and the 1024-entry syndrome table at
that index records error count 1 and locator `1 << k`. -/
theorem C4_bch_syndrome_table (k : ℕ) (hk : k < 31) (c : ℕ)
    (hc : gf2_remainder 1207 c = 0) :
    gf2_remainder 1207 (c ^^^ (1 <<< k)) = gf2_remainder 1207 (1 <<< k) ∧
    syn_lookup synRA (gf2_remainder 1207 (1 <<< k)) = ((1 : ℤ), 1 <<< k) := by
  refine ⟨?_, synRA_single_entry k hk⟩
  rw [gf2_remainder_xor, hc, Nat.zero_xor]

/-- Witness for C4 at `k = 3` and the all-zero codeword. -/
theorem C4_witness :
    (3 < 31 ∧ gf2_remainder 1207 0 = 0) ∧
    (gf2_remainder 1207 (0 ^^^ (1 <<< 3)) = gf2_remainder 1207 (1 <<< 3) ∧
      syn_lookup synRA (gf2_remainder 1207 (1 <<< 3)) = ((1 : ℤ), 1 <<< 3)) :=
  ⟨⟨by norm_num, by decide⟩, C4_bch_syndrome_table 3 (by norm_num) 0 (by decide)⟩

set_option maxRecDepth 100000 in
/-- C8: `de_interleave` (64 bits to two 32-bit streams) and
`de_interleave3` (96 bits to three 32-bit streams) are invertible bit
permutations: the explicit inverse mappings reconstruct any input
bit-for-bit, and consequently both are injective on inputs of the proper
length. -/
theorem C8_de_interleave_invertible :
    (∀ l : List ℕ, l.length = 64 →
      interleave2_inv (de_interleave l).1 (de_interleave l).2 = l) ∧
    (∀ l : List ℕ, l.length = 96 →
      interleave3_inv (de_interleave3 l).1 (de_interleave3 l).2.1
        (de_interleave3 l).2.2 = l) ∧
    (∀ l l' : List ℕ, l.length = 64 → l'.length = 64 →
      de_interleave l = de_interleave l' → l = l') ∧
    (∀ l l' : List ℕ, l.length = 96 → l'.length = 96 →
      de_interleave3 l = de_interleave3 l' → l = l') := by
  have h2 : ∀ l : List ℕ, l.length = 64 →
      interleave2_inv (de_interleave l).1 (de_interleave l).2 = l := by
    intro l h
    have key : interleave2_inv (de_interleave l).1 (de_interleave l).2 =
        (List.range 64).map (fun i => l.getD i 0) := rfl
    rw [key, ← h, map_getD_range]
  have h3 : ∀ l : List ℕ, l.length = 96 →
      interleave3_inv (de_interleave3 l).1 (de_interleave3 l).2.1
        (de_interleave3 l).2.2 = l := by
    intro l h
    have key : interleave3_inv (de_interleave3 l).1 (de_interleave3 l).2.1
        (de_interleave3 l).2.2 = (List.range 96).map (fun i => l.getD i 0) := rfl
    rw [key, ← h, map_getD_range]
  refine ⟨h2, h3, ?_, ?_⟩
  · intro l l' hl hl' he
    rw [← h2 l hl, ← h2 l' hl', he]
  · intro l l' hl hl' he
    rw [← h3 l hl, ← h3 l' hl', he]

/-- Witness for C8 at the concrete inputs `List.range 64` / `List.range 96`. -/
theorem C8_witness :
    interleave2_inv (de_interleave (List.range 64)).1
        (de_interleave (List.range 64)).2 = List.range 64 ∧
    interleave3_inv (de_interleave3 (List.range 96)).1
        (de_interleave3 (List.range 96)).2.1
        (de_interleave3 (List.range 96)).2.2 = List.range 96 :=
  ⟨C8_de_interleave_invertible.1 (List.range 64) (by simp),
   C8_de_interleave_invertible.2.1 (List.range 96) (by simp)⟩

/-- C3 (amended): `frame_decode` proceeds past its access-code gate iff at
least 24 bits are present and the first 24 equal one of the two fixed
patterns, and a failed gate rejects the frame (`return 0`,
`FRAME_UNKNOWN`); `ida_decode`'s gate additionally requires its own
minimum length `24 + 46 + 124 = 194`, which precedes the access-code
comparison. -/
theorem C3_access_gate :
    (∀ bits : List ℕ, frame_access_gate bits = true ↔
      (24 ≤ bits.length ∧ (bits.take 24 = access_dl ∨ bits.take 24 = access_ul))) ∧
    (∀ f : DemodFrame, frame_access_gate f.bits = false → frame_decode f = none) ∧
    (∀ bits : List ℕ, ida_access_gate bits = true ↔
      (194 ≤ bits.length ∧ (bits.take 24 = access_dl ∨ bits.take 24 = access_ul))) := by
  refine ⟨?_, ?_, ?_⟩
  · intro bits
    unfold frame_access_gate
    by_cases h : bits.length < 24
    · rw [if_pos h]
      simp only [Bool.false_eq_true, false_iff, not_and]
      intro hc
      omega
    · rw [if_neg h]
      simp only [Bool.or_eq_true, beq_iff_eq]
      exact ⟨fun hor => ⟨by omega, hor⟩, fun hc => hc.2⟩
  · intro f hg
    unfold frame_access_gate at hg
    unfold frame_decode
    by_cases h : f.bits.length < 24
    · rw [if_pos h]
    · rw [if_neg h] at hg ⊢
      simp only [Bool.or_eq_false_iff, beq_eq_false_iff_ne] at hg
      rw [if_pos hg]
  · intro bits
    unfold ida_access_gate
    by_cases h : bits.length < 24 + 46 + 124
    · rw [if_pos h]
      simp only [Bool.false_eq_true, false_iff, not_and]
      intro hc
      omega
    · rw [if_neg h]
      simp only [Bool.or_eq_true, beq_iff_eq]
      exact ⟨fun hor => ⟨by omega, hor⟩, fun hc => hc.2⟩

/-- Counterexample to C3 as stated: a 30-bit frame whose first 24 bits are
exactly the downlink access code satisfies the claim's condition
(at least 24 bits, exact prefix match) yet does not pass `ida_decode`'s
access-code gate, because `ida_decode` rejects at its minimum-length check
first. -/
theorem C3_counterexample :
    ida_access_gate (access_dl ++ List.replicate 6 0) = false ∧
    24 ≤ (access_dl ++ List.replicate 6 0).length ∧
    (access_dl ++ List.replicate 6 0).take 24 = access_dl := by decide

/-- Witness for C3: a frame that fails the gate is decoded to nothing. -/
theorem C3_witness :
    frame_access_gate (List.replicate 30 1) = false ∧
    frame_decode ⟨List.replicate 30 1, none⟩ = none :=
  ⟨by decide, C3_access_gate.2.1 ⟨List.replicate 30 1, none⟩ (by decide)⟩

/-- A used block is good: zero residual BCH syndrome on the corrected word
and even overall parity. -/
def block_ok (b : BlockInfo) : Prop :=
  gf2_remainder 1207 b.word = 0 ∧
  check_parity32 b.raw (blk_data b) (blk_check b) = true

theorem decode_block_pair_ok {c : List ℕ} {llr : Option (List ℚ)}
    {pr : BlockInfo × BlockInfo} (h : decode_block_pair c llr = some pr) :
    block_ok pr.1 ∧ block_ok pr.2 := by
  simp only [decode_block_pair] at h
  split at h
  · rename_i e1 v1 e2 v2 h1 h2
    split at h
    · rename_i hpar
      rw [Bool.and_eq_true] at hpar
      cases Option.some.inj h
      exact ⟨⟨chase_zero_syndrome h1, hpar.1⟩, ⟨chase_zero_syndrome h2, hpar.2⟩⟩
    · exact absurd h (by simp)
  · exact absurd h (by simp)

theorem decode_chain_ok {data : List ℕ} {llr : Option (List ℚ)} :
    ∀ (starts : List ℕ) (bl cap : ℕ) (pr : BlockInfo × BlockInfo),
      pr ∈ decode_chain data llr starts bl cap → block_ok pr.1 ∧ block_ok pr.2 := by
  intro starts
  induction starts with
  | nil =>
      intro bl cap pr h
      simp [decode_chain] at h
  | cons o rest ih =>
      intro bl cap pr h
      unfold decode_chain at h
      by_cases hc : bl + 42 ≤ cap
      · rw [if_pos hc] at h
        rcases he : decode_block_pair ((data.drop o).take 64)
            (llr.map fun l => (l.drop o).take 64) with _ | pr'
        · rw [he] at h
          simp at h
        · rw [he] at h
          rcases List.mem_cons.mp h with rfl | hm
          · exact decode_block_pair_ok he
          · exact ih _ _ _ hm
      · rw [if_neg hc] at h
        simp at h

theorem frame_try_ira_blocks {data : List ℕ} {llr : Option (List ℚ)}
    {out : DecodedFrame} (h : frame_try_ira data llr = some out) :
    ∀ blk ∈ out.blocks, block_ok blk := by
  unfold frame_try_ira at h
  by_cases hlen : 96 ≤ data.length
  · rw [if_pos hlen] at h
    split at h
    rotate_left
    · exact absurd h (by simp)
    rename_i e1 v1 e2 v2 e3 v3 h1 h2 h3
    split at h
    rotate_left
    · exact absurd h (by simp)
    rename_i hpar
    rw [Bool.and_eq_true, Bool.and_eq_true] at hpar
    cases Option.some.inj h
    intro blk hm
    simp only [DecodedFrame.blocks] at hm
    rcases List.mem_cons.mp hm with rfl | hm
    · exact ⟨chase_zero_syndrome h1, hpar.1.1⟩
    rcases List.mem_cons.mp hm with rfl | hm
    · exact ⟨chase_zero_syndrome h2, hpar.1.2⟩
    rcases List.mem_cons.mp hm with rfl | hm
    · exact ⟨chase_zero_syndrome h3, hpar.2⟩
    obtain ⟨pr, hpr, hblk⟩ := List.mem_bind.mp hm
    have hok := decode_chain_ok _ _ _ _ hpr
    rcases List.mem_cons.mp hblk with rfl | hblk
    · exact hok.1
    rcases List.mem_cons.mp hblk with rfl | hblk
    · exact hok.2
    · simp at hblk
  · rw [if_neg hlen] at h
    exact absurd h (by simp)

theorem frame_try_ibc_blocks {data : List ℕ} {llr : Option (List ℚ)}
    {out : DecodedFrame} (h : frame_try_ibc data llr = some out) :
    ∀ blk ∈ out.blocks, block_ok blk := by
  unfold frame_try_ibc at h
  by_cases hlen : 70 ≤ data.length
  · rw [if_pos hlen] at h
    split at h
    · exact absurd h (by simp)
    rename_i hv hhdr
    split at h
    · exact absurd h (by simp)
    rename_i b1 b2 hpair
    cases Option.some.inj h
    intro blk hm
    simp only [DecodedFrame.blocks] at hm
    have hok := decode_block_pair_ok hpair
    rcases List.mem_cons.mp hm with rfl | hm
    · exact hok.1
    rcases List.mem_cons.mp hm with rfl | hm
    · exact hok.2
    obtain ⟨pr, hpr, hblk⟩ := List.mem_bind.mp hm
    have hok2 := decode_chain_ok _ _ _ _ hpr
    rcases List.mem_cons.mp hblk with rfl | hblk
    · exact hok2.1
    rcases List.mem_cons.mp hblk with rfl | hblk
    · exact hok2.2
    · simp at hblk
  · rw [if_neg hlen] at h
    exact absurd h (by simp)

/-- C2: for every accepted decoded frame (IRA or IBC), every 32-bit
de-interleaved block that was used has zero residual BCH(31,21) syndrome
after correction and even overall parity across its 21 data bits, 10 check
bits and the parity bit; and the trailing-block chain is exactly the
longest prefix of capacity-permitted chunks on which BCH and parity
succeed, so a failing block terminates it (no further blocks appended). -/
theorem C2_block_invariant :
    (∀ (f : DemodFrame) (out : DecodedFrame), frame_decode f = some out →
      ∀ blk ∈ out.blocks,
        gf2_remainder 1207 blk.word = 0 ∧
        check_parity32 blk.raw (blk_data blk) (blk_check blk) = true) ∧
    (∀ (data : List ℕ) (llr : Option (List ℚ)) (starts : List ℕ) (bl cap : ℕ),
      decode_chain data llr starts bl cap =
        ((starts.take ((cap - bl) / 42)).takeWhile (fun o =>
          (decode_block_pair ((data.drop o).take 64)
            (llr.map (fun l => (l.drop o).take 64))).isSome)).filterMap
          (fun o => decode_block_pair ((data.drop o).take 64)
            (llr.map (fun l => (l.drop o).take 64)))) := by
  constructor
  · intro f out h blk hm
    unfold frame_decode at h
    by_cases h24 : f.bits.length < 24
    · rw [if_pos h24] at h
      exact absurd h (by simp)
    rw [if_neg h24] at h
    by_cases hac : f.bits.take 24 ≠ access_dl ∧ f.bits.take 24 ≠ access_ul
    · rw [if_pos hac] at h
      exact absurd h (by simp)
    rw [if_neg hac] at h
    rcases hibc : frame_try_ibc (f.bits.drop 24) (f.llr.map fun l => l.drop 24)
        with _ | out'
    · rw [hibc] at h
      exact frame_try_ira_blocks h blk hm
    · rw [hibc] at h
      cases Option.some.inj h
      exact frame_try_ibc_blocks hibc blk hm
  · intro data llr starts
    induction starts with
    | nil =>
        intro bl cap
        simp [decode_chain]
    | cons o rest ih =>
        intro bl cap
        unfold decode_chain
        by_cases hc : bl + 42 ≤ cap
        · rw [if_pos hc]
          have hn : (cap - bl) / 42 = ((cap - (bl + 42)) / 42) + 1 := by omega
          rw [hn, List.take_succ_cons, List.takeWhile_cons]
          rcases he : decode_block_pair ((data.drop o).take 64)
              (llr.map fun l => (l.drop o).take 64) with _ | pr
          · simp [he]
          · simp only [he, Option.isSome_some, if_true, List.filterMap_cons]
            rw [ih]
        · rw [if_neg hc]
          have hn : (cap - bl) / 42 = 0 := by omega
          rw [hn]
          simp

set_option maxRecDepth 1000000 in
/-- Witness for C2: a concrete frame (downlink access code followed by 96
zero bits) decodes as IBC, and the theorem applies to its used blocks. -/
theorem C2_witness :
    frame_decode ⟨access_dl ++ List.replicate 96 0, none⟩ =
      some (DecodedFrame.ibc ⟨0, 0, 0, 0, 0, 0⟩
        [⟨List.replicate 32 0, 0, 0⟩, ⟨List.replicate 32 0, 0, 0⟩]) ∧
    ∀ blk ∈ (DecodedFrame.ibc (⟨0, 0, 0, 0, 0, 0⟩ : IbcData)
        [⟨List.replicate 32 0, 0, 0⟩, ⟨List.replicate 32 0, 0, 0⟩]).blocks,
      gf2_remainder 1207 blk.word = 0 ∧
      check_parity32 blk.raw (blk_data blk) (blk_check blk) = true := by
  have h : frame_decode ⟨access_dl ++ List.replicate 96 0, none⟩ =
      some (DecodedFrame.ibc ⟨0, 0, 0, 0, 0, 0⟩
        [⟨List.replicate 32 0, 0, 0⟩, ⟨List.replicate 32 0, 0, 0⟩]) := by decide
  exact ⟨h, C2_block_invariant.1 _ _ h⟩

theorem lor_two_mul_eq_add {a b : ℕ} (hb : b ≤ 1) : (2 * a) ||| b = 2 * a + b := by
  interval_cases b
  · simp
  · apply Nat.eq_of_testBit_eq
    intro j
    cases j with
    | zero =>
        simp only [Nat.testBit_or]
        rw [Nat.testBit_zero, Nat.testBit_zero, Nat.testBit_zero]
        simp [Nat.mul_add_mod]
    | succ j =>
        simp only [Nat.testBit_or]
        rw [Nat.testBit_succ, Nat.testBit_succ, Nat.testBit_succ]
        have h1 : 2 * a / 2 = a := by omega
        have h2 : (2 * a + 1) / 2 = a := by omega
        have h3 : (1 : ℕ) / 2 = 0 := by norm_num
        rw [h1, h2, h3, Nat.zero_testBit, Bool.or_false]

theorem getD_le_one_of_mem {l : List ℕ} (hbit : ∀ b ∈ l, b ≤ 1) {i : ℕ}
    (hi : i < l.length) : l.getD i 0 ≤ 1 := by
  rw [List.getD_eq_getElem?_getD, List.getElem?_eq_getElem hi]
  exact hbit _ (List.getElem_mem hi)

/-- The `iri_time` accumulation loop over bit indices `[k, k+n)` equals the
MSB-first value of the corresponding slice, for 0/1 bit arrays and at most
32 bits (so the `uint32_t` truncation never fires). -/
theorem iri_fold_eq {bch : List ℕ} (hbit : ∀ b ∈ bch, b ≤ 1) :
    ∀ (n k acc : ℕ), k + n ≤ bch.length → n ≤ 32 → acc < 2 ^ (32 - n) →
      (List.range' k n).foldl
          (fun t i => ((t <<< 1) % 4294967296) ||| bch.getD i 0) acc
        = acc * 2 ^ n + bits_to_uint ((bch.drop k).take n) := by
  intro n
  induction n with
  | zero =>
      intro k acc _ _ _
      simp [bits_to_uint]
  | succ n ih =>
      intro k acc hlen hn hacc
      rw [List.range'_succ, List.foldl_cons]
      have hk : k < bch.length := by omega
      have hb : bch.getD k 0 ≤ 1 := getD_le_one_of_mem hbit hk
      have hshift : acc <<< 1 = 2 * acc := by
        rw [Nat.shiftLeft_eq]
        ring
      have h2acc : 2 * acc < 4294967296 := by
        have : (2 : ℕ) ^ (32 - (n + 1)) * 2 ≤ 2 ^ 32 := by
          rw [← pow_succ]
          exact Nat.pow_le_pow_right (by norm_num) (by omega)
        calc 2 * acc < 2 ^ (32 - (n + 1)) * 2 := by omega
          _ ≤ 2 ^ 32 := this
          _ = 4294967296 := by norm_num
      have hstep : ((acc <<< 1) % 4294967296) ||| bch.getD k 0
          = 2 * acc + bch.getD k 0 := by
        rw [hshift, Nat.mod_eq_of_lt h2acc, lor_two_mul_eq_add hb]
      rw [hstep]
      have hacc' : 2 * acc + bch.getD k 0 < 2 ^ (32 - n) := by
        have he : 32 - n = (32 - (n + 1)) + 1 := by omega
        rw [he, pow_succ]
        omega
      rw [ih (k + 1) _ (by omega) (by omega) hacc']
      have hslice : (bch.drop k).take (n + 1) =
          bch.getD k 0 :: ((bch.drop (k + 1)).take n) := by
        rw [List.getD_eq_getElem?_getD, List.getElem?_eq_getElem hk]
        rw [List.drop_eq_getElem_cons hk]
        rfl
      rw [hslice]
      have hcons : bits_to_uint (bch.getD k 0 :: ((bch.drop (k + 1)).take n)) =
          (bch.getD k 0 % 2) * 2 ^ ((bch.drop (k + 1)).take n).length +
            bits_to_uint ((bch.drop (k + 1)).take n) := by
        have : bch.getD k 0 :: ((bch.drop (k + 1)).take n) =
            [bch.getD k 0] ++ ((bch.drop (k + 1)).take n) := rfl
        rw [this, bits_to_uint_append]
        have hone : bits_to_uint [bch.getD k 0] = bch.getD k 0 % 2 := by
          simp only [bits_to_uint, List.foldl_cons, List.foldl_nil]
          omega
        rw [hone]
      rw [hcons]
      have hlen2 : ((bch.drop (k + 1)).take n).length = n := by
        rw [List.length_take, List.length_drop]
        omega
      rw [hlen2]
      have hb2 : bch.getD k 0 % 2 = bch.getD k 0 := Nat.mod_eq_of_lt (by omega)
      rw [hb2]
      ring

/-- C9 (amended): when parsing an IBC frame with at least 84 decoded data
bits, the 6-bit type field at bits 42..47 is read; if it equals 1, bits
52..83 (the 32 bits starting 4 bits after the end of the type field, not
immediately after it) are parsed MSB-first as the Iridium-time counter;
otherwise the counter stays 0. -/
theorem C9_ibc_time_field (bch : List ℕ) (t : ℕ) (hlen : 84 ≤ bch.length)
    (hbit : ∀ b ∈ bch, b ≤ 1) :
    (extract_uint bch 42 6 = 1 →
      (parse_ibc bch t).iri_time = bits_to_uint ((bch.drop 52).take 32)) ∧
    (extract_uint bch 42 6 ≠ 1 → (parse_ibc bch t).iri_time = 0) := by
  unfold parse_ibc
  rw [if_neg (by omega)]
  simp only
  rw [if_pos hlen]
  constructor
  · intro hty
    rw [if_pos hty]
    have h := iri_fold_eq hbit 32 52 0 (by omega) (by norm_num) (by norm_num)
    rw [h]
    ring
  · intro hty
    rw [if_neg hty]

/-- The concrete IBC data bits refuting C9 as stated: type field = 1
(bits 42..47 = 000001) and bit 48 set, all else zero. -/
def c9_bits : List ℕ :=
  (List.range 84).map (fun i => if i = 47 ∨ i = 48 then 1 else 0)

set_option maxRecDepth 100000 in
/-- Counterexample to C9 as stated: with type = 1 the code's time counter
comes from bits 52..83 (here 0), not from the 32 bits immediately
following the type field (bits 48..79, here `2^31`). -/
theorem C9_counterexample :
    extract_uint c9_bits 42 6 = 1 ∧
    (parse_ibc c9_bits 0).iri_time = 0 ∧
    bits_to_uint ((c9_bits.drop 48).take 32) = 2147483648 ∧
    (parse_ibc c9_bits 0).iri_time ≠ bits_to_uint ((c9_bits.drop 48).take 32) := by
  decide

set_option maxRecDepth 100000 in
/-- Witness for C9 on a concrete frame with type 1 and a mixed bit
pattern. -/
theorem C9_witness :
    extract_uint c9_bits 42 6 = 1 ∧
    (parse_ibc c9_bits 0).iri_time = bits_to_uint ((c9_bits.drop 52).take 32) :=
  ⟨by decide,
    (C9_ibc_time_field c9_bits 0 (by decide) (by decide)).1 (by decide)⟩

/-- The 63 header bits encoding sat 0, beam 0, XYZ = (1000, 1000, 1000):
each 12-bit signed field is sign 0 followed by 1000 = 01111101000b. -/
def c1_bits : List ℕ :=
  List.replicate 13 0 ++
  [0, 0, 1, 1, 1, 1, 1, 0, 1, 0, 0, 0] ++
  [0, 0, 1, 1, 1, 1, 1, 0, 1, 0, 0, 0] ++
  [0, 0, 1, 1, 1, 1, 1, 0, 1, 0, 0, 0] ++
  List.replicate 14 0

set_option maxRecDepth 100000 in
/-- C1 (amended): the IRA geodetic conversion uses
`lat = atan2(z, √(x²+y²))·180/π`, `lon = atan2(y, x)·180/π`, and
`alt_km = ⌊4·√(x²+y²+z²)⌋ − 6378 + 23` — the `(int)` cast truncates, it
does not round. For the 63-bit header encoding XYZ = (1000, 1000, 1000)
the parser extracts exactly those coordinates, `lon = 45°`,
`lat = arctan(√2/2)·180/π` (≈ 35.2644°, strictly between 30° and 45°),
and `alt_km = 573`. -/
theorem C1_ira_geodetic :
    (∀ x y z : ℤ, ira_alt x y z = ira_alt_real x y z) ∧
    parse_ira c1_bits =
      { sat_id := 0, beam_id := 0, x := 1000, y := 1000, z := 1000, pages := [] } ∧
    ira_lon 1000 1000 = 45 ∧
    ira_lat 1000 1000 1000 = Real.arctan (Real.sqrt 2 / 2) * 180 / Real.pi ∧
    (30 < ira_lat 1000 1000 1000 ∧ ira_lat 1000 1000 1000 < 45) ∧
    ira_alt 1000 1000 1000 = 573 := by
  have hpi := Real.pi_pos
  have hlat : ira_lat 1000 1000 1000 =
      Real.arctan (Real.sqrt 2 / 2) * 180 / Real.pi := by
    unfold ira_lat atan2
    have hs : Real.sqrt (((1000 : ℤ) : ℝ) ^ 2 + ((1000 : ℤ) : ℝ) ^ 2) =
        1000 * Real.sqrt 2 := by
      push_cast
      rw [show (1000 : ℝ) ^ 2 + (1000 : ℝ) ^ 2 = 1000 ^ 2 * 2 by ring]
      rw [Real.sqrt_mul (by positivity) 2]
      rw [Real.sqrt_sq (by norm_num : (0 : ℝ) ≤ 1000)]
    rw [hs]
    rw [if_pos (by positivity : (0 : ℝ) < 1000 * Real.sqrt 2)]
    have harg : ((1000 : ℤ) : ℝ) / (1000 * Real.sqrt 2) = Real.sqrt 2 / 2 := by
      have h2 : Real.sqrt 2 * Real.sqrt 2 = 2 :=
        Real.mul_self_sqrt (by norm_num)
      push_cast
      rw [div_eq_div_iff (by positivity) (by norm_num)]
      nlinarith [h2]
    rw [harg]
  have harc_lt : Real.arctan (Real.sqrt 2 / 2) < Real.pi / 4 := by
    rw [← Real.arctan_one]
    apply Real.arctan_strictMono
    rw [div_lt_one (by norm_num : (0 : ℝ) < 2)]
    exact (Real.sqrt_lt' (by norm_num : (0 : ℝ) < 2)).mpr (by norm_num)
  have harc_gt : Real.pi / 6 < Real.arctan (Real.sqrt 2 / 2) := by
    have ht : Real.arctan (1 / Real.sqrt 3) = Real.pi / 6 := by
      rw [← Real.tan_pi_div_six]
      exact Real.arctan_tan (by linarith) (by linarith)
    rw [← ht]
    apply Real.arctan_strictMono
    rw [div_lt_div_iff (Real.sqrt_pos.mpr (by norm_num)) (by norm_num : (0 : ℝ) < 2)]
    have h6 : Real.sqrt 2 * Real.sqrt 3 = Real.sqrt 6 := by
      rw [← Real.sqrt_mul (by norm_num : (0 : ℝ) ≤ 2)]
      norm_num
    rw [one_mul, h6]
    exact (Real.lt_sqrt (by norm_num : (0 : ℝ) ≤ 2)).mpr (by norm_num)
  refine ⟨ira_alt_eq_real, by decide, ?_, hlat, ⟨?_, ?_⟩, ?_⟩
  · unfold ira_lon atan2
    rw [if_pos (by norm_num : (0 : ℝ) < ((1000 : ℤ) : ℝ))]
    rw [show ((1000 : ℤ) : ℝ) / ((1000 : ℤ) : ℝ) = 1 by norm_num]
    rw [Real.arctan_one]
    field_simp
    ring
  · rw [hlat]
    rw [lt_div_iff hpi]
    nlinarith [harc_gt]
  · rw [hlat]
    rw [div_lt_iff hpi]
    nlinarith [harc_lt]
  · unfold ira_alt
    have h1 : ((1000 : ℤ) ^ 2 + 1000 ^ 2 + 1000 ^ 2) = 3000000 := by norm_num
    rw [h1, show (3000000 : ℤ).toNat = 3000000 from rfl]
    have h2 : Nat.sqrt (16 * 3000000) = 6928 := by norm_num
    rw [h2]
    norm_num

/-- Counterexample to C1 as stated: at XYZ = (1, 1, 0) the code's
truncation gives `⌊4√2⌋ − 6355 = 5 − 6355 = −6350`, while the claimed
rounding gives `round(4√2) − 6355 = 6 − 6355 = −6349`. -/
theorem C1_counterexample :
    ira_alt_real 1 1 0 = -6350 ∧ ira_alt_spec_round 1 1 0 = -6349 ∧
    ira_alt_real 1 1 0 ≠ ira_alt_spec_round 1 1 0 := by
  have hs : Real.sqrt (((1 : ℤ) : ℝ) ^ 2 + ((1 : ℤ) : ℝ) ^ 2 + ((0 : ℤ) : ℝ) ^ 2) =
      Real.sqrt 2 := by norm_num
  have hlo : (5 : ℝ) ≤ Real.sqrt 2 * 4 := by
    nlinarith [Real.sq_sqrt (by norm_num : (0 : ℝ) ≤ 2),
      Real.sqrt_nonneg (2 : ℝ)]
  have hhi : Real.sqrt 2 * 4 < 6 := by
    nlinarith [Real.sq_sqrt (by norm_num : (0 : ℝ) ≤ 2),
      Real.sqrt_nonneg (2 : ℝ)]
  have hlo2 : (11 : ℝ) / 2 ≤ Real.sqrt 2 * 4 := by
    nlinarith [Real.sq_sqrt (by norm_num : (0 : ℝ) ≤ 2),
      Real.sqrt_nonneg (2 : ℝ)]
  have hfloor : ⌊Real.sqrt 2 * 4⌋ = 5 := by
    rw [Int.floor_eq_iff]
    constructor
    · exact_mod_cast hlo
    · push_cast
      linarith
  have hround : round (Real.sqrt 2 * 4) = 6 := by
    rw [round_eq, Int.floor_eq_iff]
    constructor
    · push_cast
      linarith
    · push_cast
      linarith
  unfold ira_alt_real ira_alt_spec_round
  rw [hs, hfloor, hround]
  norm_num

/-- The running-sum loop of `check_sync_word` equals the sum of the
pointwise distances over the zipped prefixes. -/
theorem sum_fold_zip (f : ℤ → ℤ → ℕ) (s u : List ℤ) :
    ∀ n, n ≤ s.length → n ≤ u.length →
      (List.range n).foldl (fun d i => d + f (s.getD i 0) (u.getD i 0)) 0
        = ((s.take n).zipWith f (u.take n)).sum := by
  intro n
  induction n with
  | zero => intro _ _; simp
  | succ n ih =>
      intro hs hu
      rw [List.range_succ, List.foldl_append, List.foldl_cons, List.foldl_nil]
      rw [ih (by omega) (by omega)]
      have hsn : n < s.length := by omega
      have hun : n < u.length := by omega
      have hts : s.take (n + 1) = s.take n ++ [s[n]] := by
        rw [List.take_succ, List.getElem?_eq_getElem hsn]
        rfl
      have htu : u.take (n + 1) = u.take n ++ [u[n]] := by
        rw [List.take_succ, List.getElem?_eq_getElem hun]
        rfl
      have hlen : (s.take n).length = (u.take n).length := by
        rw [List.length_take, List.length_take]
        omega
      rw [hts, htu, List.zipWith_append _ _ _ _ _ hlen]
      rw [List.sum_append]
      simp only [List.zipWith_cons_cons, List.zipWith_nil_right, List.sum_cons,
        List.sum_nil]
      rw [List.getD_eq_getElem?_getD, List.getElem?_eq_getElem hsn,
        List.getD_eq_getElem?_getD, List.getElem?_eq_getElem hun]
      simp

theorem uw_of_length (dir : Direction) : (uw_of dir).length = 12 := by
  cases dir <;> rfl

/-- The observed symbol vector of the C7 scenario. -/
def c7_syms : List ℤ := [0, 2, 2, 2, 2, 0, 0, 0, 2, 0, 0, 0]

/-- C7 (amended): the hard unique-word check accepts iff at least 12
symbols are present and the wrap-aware distance (a 3-step difference
counts as 1) to the direction's unique word is at most 2; the observed
vector `(0,2,2,2,2,0,0,0,2,0,0,0)` differs from the DL unique word in its
last symbol by two steps (distance 2, not 1) and is hard-accepted as
downlink. -/
theorem C7_unique_word :
    (∀ (symbols : List ℤ) (dir : Direction),
      check_sync_word symbols dir = true ↔
        (12 ≤ symbols.length ∧ uw_distance symbols (uw_of dir) ≤ 2)) ∧
    uw_distance c7_syms IR_UW_DL = 2 ∧
    (∀ (e1 e2 : ℚ) (dir0 : Direction),
      uw_gate c7_syms e1 e2 dir0 = some Direction.downlink) := by
  refine ⟨?_, by decide, ?_⟩
  · intro symbols dir
    unfold check_sync_word
    by_cases h12 : symbols.length < 12
    · rw [if_pos h12]
      simp only [Bool.false_eq_true, false_iff, not_and]
      intro hc
      omega
    · rw [if_neg h12]
      have hfold := sum_fold_zip
        (fun a b => if (a - b).natAbs = 3 then 1 else (a - b).natAbs)
        symbols (uw_of dir) 12 (by omega) (by rw [uw_of_length])
      rw [decide_eq_true_eq]
      unfold uw_distance sym_wrap_dist
      rw [show (uw_of dir).take 12 = uw_of dir from
        List.take_of_length_le (by rw [uw_of_length])] at hfold
      rw [hfold]
      exact ⟨fun hle => ⟨by omega, hle⟩, fun hc => hc.2⟩
  · intro e1 e2 dir0
    have hdl : check_sync_word c7_syms Direction.downlink = true := by decide
    have hul : check_sync_word c7_syms Direction.uplink = false := by decide
    unfold uw_gate
    rw [hdl, hul]
    simp

/-- Counterexample to C7 as stated: the observed vector is not "one step
off" the DL unique word — its wrap-aware distance is 2, not 1. -/
theorem C7_counterexample :
    uw_distance c7_syms IR_UW_DL = 2 ∧ uw_distance c7_syms IR_UW_DL ≠ 1 := by
  decide

/-- Witness for C7: the characterization applied at the DL unique word
itself (distance 0). -/
theorem C7_witness :
    check_sync_word IR_UW_DL Direction.downlink = true ∧
    12 ≤ IR_UW_DL.length ∧ uw_distance IR_UW_DL (uw_of Direction.downlink) ≤ 2 :=
  ⟨by decide,
    (C7_unique_word.1 IR_UW_DL Direction.downlink).mp (by decide) |>.1,
    (C7_unique_word.1 IR_UW_DL Direction.downlink).mp (by decide) |>.2⟩

theorem check_sync_word_short {symbols : List ℤ} (h : symbols.length < 12)
    (dir : Direction) : check_sync_word symbols dir = false := by
  unfold check_sync_word
  rw [if_pos h]

theorem uw_gate_short {symbols : List ℤ} (h : symbols.length < 12)
    (e1 e2 : ℚ) (dir0 : Direction) : uw_gate symbols e1 e2 dir0 = none := by
  unfold uw_gate soft_check_result
  rw [check_sync_word_short h, check_sync_word_short h]
  simp only [Bool.not_eq_true, and_self, if_true, if_pos h]
  norm_num

theorem decode_dqpsk_length (symbols : List ℤ) :
    (decode_dqpsk symbols).length = symbols.length := by
  suffices h : ∀ (l : List ℤ) (st : ℤ × List ℕ),
      ((l.foldl (fun (st : ℤ × List ℕ) s =>
        (s, st.2 ++ [dqpsk_map.getD ((s - st.1 + 4) % 4).toNat 0])) st).2).length
        = st.2.length + l.length by
    have := h symbols (0, [])
    simpa [decode_dqpsk] using this
  intro l
  induction l with
  | nil => intro st; simp
  | cons a as ih =>
      intro st
      rw [List.foldl_cons, ih]
      simp
      omega

theorem map_symbols_to_bits_length (l : List ℕ) :
    (map_symbols_to_bits l).length = 2 * l.length := by
  unfold map_symbols_to_bits
  induction l with
  | nil => rfl
  | cons a as ih =>
      have hc : (a :: as).bind (fun s => [s >>> 1 % 2, s % 2]) =
          [a >>> 1 % 2, a % 2] ++ as.bind (fun s => [s >>> 1 % 2, s % 2]) := rfl
      rw [hc, List.length_append, ih]
      simp
      omega

/-- C10: every frame emitted by the demodulator has at least 12 symbols
(the unique-word length), a non-negative payload symbol count
`n_symbols - 12`, and `n_bits = 2·n_symbols ≥ 24` with a bit array of
exactly that length; frames with fewer than 12 surviving symbols are
always rejected because both the hard unique-word check and the soft
rescue fail for them. -/
theorem C10_demod_invariant :
    (∀ (symbols : List ℤ) (e1 e2 : ℚ) (dir0 : Direction) (fr : DemodOut),
      qpsk_demod_emit symbols e1 e2 dir0 = some fr →
        12 ≤ fr.n_symbols ∧ 0 ≤ fr.n_payload_symbols ∧
        fr.n_payload_symbols = (fr.n_symbols : ℤ) - 12 ∧
        fr.n_bits = 2 * fr.n_symbols ∧ 24 ≤ fr.n_bits ∧
        fr.bits.length = fr.n_bits) ∧
    (∀ (symbols : List ℤ) (e1 e2 : ℚ) (dir0 : Direction),
      symbols.length < 12 → qpsk_demod_emit symbols e1 e2 dir0 = none) := by
  constructor
  · intro symbols e1 e2 dir0 fr h
    unfold qpsk_demod_emit at h
    rcases hg : uw_gate symbols e1 e2 dir0 with _ | dir
    · rw [hg] at h
      exact absurd h (by simp)
    · rw [hg] at h
      cases Option.some.inj h
      have h12 : 12 ≤ symbols.length := by
        by_contra hlt
        rw [uw_gate_short (by omega) e1 e2 dir0] at hg
        exact Option.noConfusion hg
      refine ⟨h12, by simp; omega, by simp, rfl, by simp; omega, ?_⟩
      simp only
      rw [map_symbols_to_bits_length, decode_dqpsk_length]
  · intro symbols e1 e2 dir0 h
    unfold qpsk_demod_emit
    rw [uw_gate_short h]

/-- The demod record emitted for the exact DL unique word. -/
def c10_out : DemodOut :=
  { direction := Direction.downlink
    n_symbols := 12
    n_payload_symbols := 0
    bits := [0, 0, 1, 1, 0, 0, 0, 0, 0, 0, 1, 1, 0, 0, 0, 0, 1, 1, 1, 1, 0, 0, 1, 1]
    n_bits := 24 }

/-- Witness for C10 on the exact DL unique word. -/
theorem C10_witness :
    qpsk_demod_emit IR_UW_DL 0 0 Direction.undef = some c10_out ∧
    12 ≤ c10_out.n_symbols ∧ 0 ≤ c10_out.n_payload_symbols ∧
    c10_out.n_bits = 2 * c10_out.n_symbols ∧
    c10_out.bits.length = c10_out.n_bits := by
  have h : qpsk_demod_emit IR_UW_DL 0 0 Direction.undef = some c10_out := by
    decide
  have h2 := C10_demod_invariant.1 IR_UW_DL 0 0 Direction.undef c10_out h
  exact ⟨h, h2.1, h2.2.1, h2.2.2.2.1, h2.2.2.2.2.2⟩

theorem update_filters_post_bursts (d : DetState) (mag : List ℚ) (force : Bool) :
    (update_filters_post d mag force).bursts = d.bursts ∧
    (update_filters_post d mag force).gone_bursts = d.gone_bursts := by
  unfold update_filters_post
  split
  · split <;> exact ⟨rfl, rfl⟩
  · exact ⟨rfl, rfl⟩

/-- C5 (amended): in `delete_gone_bursts` a burst is retired exactly when
`last_active + post_roll ≤ current_index` or
`last_active − start > max_burst_len` (strictly greater); each retired
burst gets `stop := current_index` and is appended to the emission queue
in order; a length-triggered retirement forces a baseline update in the
same frame (the current magnitudes are written into the history row); and
a burst whose length is exactly `max_burst_len`, still inside its
post-roll, is NOT retired — length retirement needs
`last_active − start > max_burst_len`. -/
theorem C5_burst_retirement :
    (∀ (d : DetState) (b : ActiveBurst),
      burst_gone_cond d b = true ↔
        (b.last_active + d.burst_post_len ≤ d.index ∨
         (0 < d.max_burst_len ∧ d.max_burst_len < b.last_active - b.start))) ∧
    (∀ (d : DetState) (mag : List ℚ),
      (delete_gone_bursts d mag).bursts =
        d.bursts.filter (fun b => ¬ burst_gone_cond d b) ∧
      (delete_gone_bursts d mag).gone_bursts =
        d.gone_bursts ++ (d.bursts.filter (fun b => burst_gone_cond d b)).map
          (fun b => { b with stop := d.index })) ∧
    (∀ (d : DetState) (mag : List ℚ) (b : ActiveBurst), b ∈ d.bursts →
      d.index < b.last_active + d.burst_post_len →
      b.last_active - b.start = d.max_burst_len →
      b ∈ (delete_gone_bursts d mag).bursts) ∧
    (∀ (d : DetState) (mag : List ℚ),
      d.history_index < d.baseline_history.length →
      (∃ b ∈ d.bursts, burst_long_cond d b = true) →
      (delete_gone_bursts d mag).baseline_history.getD d.history_index [] = mag) := by
  have hcond : ∀ (d : DetState) (b : ActiveBurst),
      burst_gone_cond d b = true ↔
        (b.last_active + d.burst_post_len ≤ d.index ∨
         (0 < d.max_burst_len ∧ d.max_burst_len < b.last_active - b.start)) := by
    intro d b
    unfold burst_gone_cond burst_long_cond
    simp
  have hlists : ∀ (d : DetState) (mag : List ℚ),
      (delete_gone_bursts d mag).bursts =
        d.bursts.filter (fun b => ¬ burst_gone_cond d b) ∧
      (delete_gone_bursts d mag).gone_bursts =
        d.gone_bursts ++ (d.bursts.filter (fun b => burst_gone_cond d b)).map
          (fun b => { b with stop := d.index }) := by
    intro d mag
    unfold delete_gone_bursts
    split
    · exact ⟨(update_filters_post_bursts _ _ _).1,
        (update_filters_post_bursts _ _ _).2⟩
    · exact ⟨rfl, rfl⟩
  refine ⟨hcond, hlists, ?_, ?_⟩
  · intro d mag b hb hpost hlen
    rw [(hlists d mag).1, List.mem_filter]
    refine ⟨hb, ?_⟩
    simp only [Bool.not_eq_true', decide_eq_true_eq]
    cases hgc : burst_gone_cond d b
    · simp
    · rcases (hcond d b).mp hgc with hle | ⟨_, hlt⟩
      · omega
      · omega
  · intro d mag hidx hex
    unfold delete_gone_bursts
    have hany : (d.bursts.any fun b => burst_long_cond d b) = true := by
      rw [List.any_eq_true]
      obtain ⟨b, hb, hc⟩ := hex
      exact ⟨b, hb, hc⟩
    rw [if_pos hany]
    unfold update_filters_post
    rw [if_pos (Or.inr rfl)]
    split <;>
      · simp only
        exact getD_set_self hidx

/-- The state of the C5 boundary counterexample: one burst with
`last_active - start` exactly `max_burst_len`, still inside its
post-roll. -/
def c5_burst : ActiveBurst :=
  { id := 0, start := 0, stop := 0, last_active := 100, center_bin := 0,
    magnitude := 0, noise := 0 }

def c5_state : DetState :=
  { fft_size := 1, burst_pre_len := 10, burst_post_len := 50, burst_width := 0,
    max_bursts := 4, max_burst_len := 100, history_size := 2, threshold := 2,
    baseline_history := [[0], [0]], baseline_sum := [1], history_index := 0,
    history_primed := true, relative_magnitude := [0], burst_mask := [1],
    bursts := [c5_burst], new_bursts := [], gone_bursts := [], peaks := [],
    burst_id := 0, index := 120, squelch_count := 0 }

/-- Counterexample to C5 as stated: a burst exactly `max_burst_len` long
(`last_active - start = 100 = max_burst_len`) that is still inside its
post-roll is not retired at all — it neither retires on length nor on
silence in this frame. -/
theorem C5_counterexample :
    c5_burst.last_active - c5_burst.start = c5_state.max_burst_len ∧
    c5_state.index < c5_burst.last_active + c5_state.burst_post_len ∧
    (delete_gone_bursts c5_state [1]).bursts = [c5_burst] ∧
    (delete_gone_bursts c5_state [1]).gone_bursts = [] := by decide

/-- Witness for C5: a state with one burst past its post-roll and one
long burst; both retire, the forced update writes the magnitude row. -/
def c5_long_burst : ActiveBurst :=
  { id := 1, start := 0, stop := 0, last_active := 101, center_bin := 0,
    magnitude := 0, noise := 0 }

def c5_state2 : DetState :=
  { c5_state with bursts := [c5_long_burst] }

theorem C5_witness :
    (burst_gone_cond c5_state2 c5_long_burst = true ↔
      (c5_long_burst.last_active + c5_state2.burst_post_len ≤ c5_state2.index ∨
       (0 < c5_state2.max_burst_len ∧
        c5_state2.max_burst_len < c5_long_burst.last_active - c5_long_burst.start))) ∧
    (delete_gone_bursts c5_state2 [1]).baseline_history.getD
      c5_state2.history_index [] = [1] := by
  constructor
  · exact C5_burst_retirement.1 c5_state2 c5_long_burst
  · exact C5_burst_retirement.2.2.2 c5_state2 [1] (by decide)
      ⟨c5_long_burst, by decide, by decide⟩

theorem create_burst_step_fields (d : DetState) (p : ℕ × ℚ) :
    (create_burst_step d p).max_bursts = d.max_bursts ∧
    (create_burst_step d p).index = d.index ∧
    (create_burst_step d p).burst_pre_len = d.burst_pre_len ∧
    (create_burst_step d p).gone_bursts = d.gone_bursts ∧
    (create_burst_step d p).squelch_count = d.squelch_count ∧
    (create_burst_step d p).fft_size = d.fft_size ∧
    (create_burst_step d p).history_size = d.history_size := by
  unfold create_burst_step
  split <;> exact ⟨rfl, rfl, rfl, rfl, rfl, rfl, rfl⟩

theorem create_burst_loop_fields (d : DetState) :
    (create_burst_loop d).max_bursts = d.max_bursts ∧
    (create_burst_loop d).index = d.index ∧
    (create_burst_loop d).burst_pre_len = d.burst_pre_len ∧
    (create_burst_loop d).gone_bursts = d.gone_bursts ∧
    (create_burst_loop d).squelch_count = d.squelch_count ∧
    (create_burst_loop d).fft_size = d.fft_size ∧
    (create_burst_loop d).history_size = d.history_size := by
  have key : ∀ (ps : List (ℕ × ℚ)) (d0 : DetState),
      (ps.foldl create_burst_step d0).max_bursts = d0.max_bursts ∧
      (ps.foldl create_burst_step d0).index = d0.index ∧
      (ps.foldl create_burst_step d0).burst_pre_len = d0.burst_pre_len ∧
      (ps.foldl create_burst_step d0).gone_bursts = d0.gone_bursts ∧
      (ps.foldl create_burst_step d0).squelch_count = d0.squelch_count ∧
      (ps.foldl create_burst_step d0).fft_size = d0.fft_size ∧
      (ps.foldl create_burst_step d0).history_size = d0.history_size := by
    intro ps
    induction ps with
    | nil => intro d0; exact ⟨rfl, rfl, rfl, rfl, rfl, rfl, rfl⟩
    | cons p pt ih =>
        intro d0
        rw [List.foldl_cons]
        obtain ⟨h1, h2, h3, h4, h5, h6, h7⟩ := ih (create_burst_step d0 p)
        obtain ⟨g1, g2, g3, g4, g5, g6, g7⟩ := create_burst_step_fields d0 p
        exact ⟨h1.trans g1, h2.trans g2, h3.trans g3, h4.trans g4,
          h5.trans g5, h6.trans g6, h7.trans g7⟩
  exact key d.peaks _

theorem create_new_bursts_config (d : DetState) :
    (create_new_bursts d).fft_size = d.fft_size ∧
    (create_new_bursts d).history_size = d.history_size ∧
    (create_new_bursts d).index = d.index := by
  obtain ⟨f1, f2, f3, f4, f5, f6, f7⟩ := create_burst_loop_fields d
  simp only [create_new_bursts]
  split
  · split
    · exact ⟨f6, f7, f2⟩
    · exact ⟨f6, f7, f2⟩
  · exact ⟨f6, f7, f2⟩

theorem getD_replicate {α : Type} (n i : ℕ) (a d : α) :
    (List.replicate n a).getD i d = if i < n then a else d := by
  rcases Nat.lt_or_ge i n with h | h
  · simp [List.getD, List.getElem?_replicate, h]
  · have hlen : (List.replicate n a).length ≤ i := by simpa using h
    rw [if_neg (by omega)]
    simp [List.getD, List.getElem?_eq_none hlen]

/-- C6 (amended): when the post-creation active-burst count exceeds
`max_bursts` (and `max_bursts > 0`), all bursts created this frame are
discarded, the remaining active bursts are retired with
`stop := current_index`, and the squelch counter increases by 3; once it
reaches 10 or more the baseline is cleared immediately — primed flag
false, history and running sums zeroed, counter reset to 0 — but the same
frame's closing baseline update, running with no active bursts, writes
the current magnitude row, so the NEXT frame begins unprimed with the
running sums equal to this frame's magnitudes (not zero) and one history
row filled. On a clean frame the counter decreases by 1 with floor 0. -/
theorem C6_squelch :
    (∀ d : DetState, 0 < d.max_bursts →
      d.max_bursts < (create_burst_loop d).bursts.length →
      (create_new_bursts d).new_bursts = [] ∧
      (create_new_bursts d).bursts = [] ∧
      (create_new_bursts d).gone_bursts = d.gone_bursts ++
        (((create_burst_loop d).bursts.filter
          (fun b => b.start ≠ d.index - d.burst_pre_len)).map
          (fun b => { b with stop := d.index })) ∧
      (create_new_bursts d).squelch_count =
        (if 10 ≤ d.squelch_count + 3 then 0 else d.squelch_count + 3) ∧
      (10 ≤ d.squelch_count + 3 →
        (create_new_bursts d).history_primed = false ∧
        (create_new_bursts d).history_index = 0 ∧
        (create_new_bursts d).baseline_sum = List.replicate d.fft_size 0 ∧
        (create_new_bursts d).baseline_history =
          List.replicate d.history_size (List.replicate d.fft_size 0))) ∧
    (∀ d : DetState,
      ¬ (0 < d.max_bursts ∧ d.max_bursts < (create_burst_loop d).bursts.length) →
      (create_new_bursts d).squelch_count = d.squelch_count - 1) ∧
    (∀ (d : DetState) (mag : List ℚ), d.history_primed = true →
      2 ≤ (detector_detect d mag).history_size →
      mag.length = (detector_detect d mag).fft_size →
      0 < (detector_detect d mag).max_bursts →
      (detector_detect d mag).max_bursts <
        (create_burst_loop (detector_detect d mag)).bursts.length →
      10 ≤ (detector_detect d mag).squelch_count + 3 →
      (detector_frame d mag).history_primed = false ∧
      (detector_frame d mag).baseline_sum = mag ∧
      (detector_frame d mag).history_index = 1) := by
  have hA : ∀ d : DetState, 0 < d.max_bursts →
      d.max_bursts < (create_burst_loop d).bursts.length →
      (create_new_bursts d).new_bursts = [] ∧
      (create_new_bursts d).bursts = [] ∧
      (create_new_bursts d).gone_bursts = d.gone_bursts ++
        (((create_burst_loop d).bursts.filter
          (fun b => b.start ≠ d.index - d.burst_pre_len)).map
          (fun b => { b with stop := d.index })) ∧
      (create_new_bursts d).squelch_count =
        (if 10 ≤ d.squelch_count + 3 then 0 else d.squelch_count + 3) ∧
      (10 ≤ d.squelch_count + 3 →
        (create_new_bursts d).history_primed = false ∧
        (create_new_bursts d).history_index = 0 ∧
        (create_new_bursts d).baseline_sum = List.replicate d.fft_size 0 ∧
        (create_new_bursts d).baseline_history =
          List.replicate d.history_size (List.replicate d.fft_size 0)) := by
    intro d h1 h2
    obtain ⟨f1, f2, f3, f4, f5, f6, f7⟩ := create_burst_loop_fields d
    have hcmain : 0 < (create_burst_loop d).max_bursts ∧
        (create_burst_loop d).max_bursts < (create_burst_loop d).bursts.length :=
      ⟨by rw [f1]; exact h1, by rw [f1]; exact h2⟩
    simp only [create_new_bursts]
    rw [if_pos hcmain]
    split
    · rename_i hcond
      have hsc : 10 ≤ d.squelch_count + 3 := by
        rw [← f5]
        exact hcond
      refine ⟨rfl, rfl, ?_, ?_, fun _ => ⟨rfl, rfl, ?_, ?_⟩⟩
      · show (create_burst_loop d).gone_bursts ++
          (((create_burst_loop d).bursts.filter
            (fun b => b.start ≠ (create_burst_loop d).index -
              (create_burst_loop d).burst_pre_len)).map
            (fun b => { b with stop := (create_burst_loop d).index })) = _
        rw [f2, f3, f4]
      · rw [if_pos hsc]
      · show List.replicate (create_burst_loop d).fft_size 0 = _
        rw [f6]
      · show List.replicate (create_burst_loop d).history_size
          (List.replicate (create_burst_loop d).fft_size 0) = _
        rw [f6, f7]
    · rename_i hcond
      have hsc : ¬ 10 ≤ d.squelch_count + 3 := by
        intro hx
        apply hcond
        show 10 ≤ (create_burst_loop d).squelch_count + 3
        rw [f5]
        exact hx
      refine ⟨rfl, rfl, ?_, ?_, fun hc => absurd hc hsc⟩
      · show (create_burst_loop d).gone_bursts ++
          (((create_burst_loop d).bursts.filter
            (fun b => b.start ≠ (create_burst_loop d).index -
              (create_burst_loop d).burst_pre_len)).map
            (fun b => { b with stop := (create_burst_loop d).index })) = _
        rw [f2, f3, f4]
      · rw [if_neg hsc]
        show (create_burst_loop d).squelch_count + 3 = _
        rw [f5]
  refine ⟨hA, ?_, ?_⟩
  · intro d h
    obtain ⟨f1, f2, f3, f4, f5, f6, f7⟩ := create_burst_loop_fields d
    simp only [create_new_bursts]
    rw [if_neg (fun hc => h ⟨f1 ▸ hc.1, f1 ▸ hc.2⟩)]
    show (create_burst_loop d).squelch_count - 1 = _
    rw [f5]
  · intro d mag hpr hhs hlen hmax hover hsc
    obtain ⟨c1, c2, c3⟩ := create_new_bursts_config (detector_detect d mag)
    obtain ⟨_, _, _, _, hreach⟩ := hA (detector_detect d mag) hmax hover
    obtain ⟨hprimed, hidx, hsum, hhist⟩ := hreach hsc
    have hb : (create_new_bursts (detector_detect d mag)).bursts = [] :=
      (hA (detector_detect d mag) hmax hover).2.1
    unfold detector_frame
    rw [if_pos hpr]
    simp only [update_filters_post]
    have hcnd : (create_new_bursts (detector_detect d mag)).bursts.length = 0 ∨
        false = true := Or.inl (by rw [hb]; rfl)
    rw [if_pos hcnd]
    rw [hidx, hhist, hsum, c1, c2]
    have hrow : (List.replicate (detector_detect d mag).history_size
        (List.replicate (detector_detect d mag).fft_size (0 : ℚ))).getD 0 [] =
        List.replicate (detector_detect d mag).fft_size (0 : ℚ) := by
      rw [getD_replicate]
      rw [if_pos (by omega)]
    rw [hrow]
    have hmap : (List.range (detector_detect d mag).fft_size).map
        (fun i => (List.replicate (detector_detect d mag).fft_size (0 : ℚ)).getD i 0 -
          (List.replicate (detector_detect d mag).fft_size (0 : ℚ)).getD i 0 +
          mag.getD i 0) = mag := by
      have hcong : ∀ i ∈ List.range (detector_detect d mag).fft_size,
          (List.replicate (detector_detect d mag).fft_size (0 : ℚ)).getD i 0 -
            (List.replicate (detector_detect d mag).fft_size (0 : ℚ)).getD i 0 +
            mag.getD i 0 = mag.getD i 0 := by
        intro i _
        ring
      rw [List.map_congr_left hcong, ← hlen, map_getD_range]
    rw [hmap]
    rw [if_neg (by omega)]
    exact ⟨hprimed, rfl, rfl⟩

/-- A burst used twice to overflow `max_bursts = 1`: created well before
this frame, still alive (inside its post-roll, not over-long). -/
def c6_b : ActiveBurst :=
  { id := 0, start := 80, stop := 0, last_active := 90, center_bin := 0,
    magnitude := 0, noise := 0 }

/-- A primed detector one squelch trigger away from the reset: two active
bursts against `max_bursts = 1`, `squelch_count = 7` so the `+3` reaches
10 this frame. -/
def c6_state : DetState :=
  { fft_size := 1, burst_pre_len := 10, burst_post_len := 50, burst_width := 0,
    max_bursts := 1, max_burst_len := 1000, history_size := 3, threshold := 2,
    baseline_history := [[0], [0], [0]], baseline_sum := [1], history_index := 0,
    history_primed := true, relative_magnitude := [0], burst_mask := [1],
    bursts := [c6_b, c6_b], new_bursts := [], gone_bursts := [], peaks := [],
    burst_id := 5, index := 120, squelch_count := 7 }

/-- Counterexample to C6 as stated: in the frame where the squelch counter
reaches 10 the reset does fire (primed flag false, counter 0), but the
same frame's closing baseline update runs with no active bursts and writes
the current magnitude row into the running sum, so the next frame does NOT
begin with the running sums all zero. -/
theorem C6_counterexample :
    (detector_frame c6_state [1]).history_primed = false ∧
    (detector_frame c6_state [1]).squelch_count = 0 ∧
    (detector_frame c6_state [1]).baseline_sum ≠
      List.replicate c6_state.fft_size 0 := by
  refine ⟨?_, ?_, ?_⟩ <;>
    norm_num [detector_frame, detector_detect, update_bursts,
      remove_peaks_around_bursts, extract_peaks, delete_gone_bursts,
      update_burst_mask, mask_burst, burst_gone_cond, burst_long_cond,
      update_filters_post, create_new_bursts, create_burst_loop,
      create_burst_step, c6_state, c6_b, List.range_succ,
      List.foldl_cons, List.foldl_nil, List.filter_cons,
      List.getD_cons_zero, List.getD_cons_succ, List.replicate_succ]

theorem C6_witness :
    (create_new_bursts c6_state).new_bursts = [] ∧
    (create_new_bursts c6_state).bursts = [] ∧
    (create_new_bursts c6_state).squelch_count = 0 ∧
    (create_new_bursts c6_state).history_primed = false := by
  obtain ⟨h1, h2, _, h4, h5⟩ := C6_squelch.1 c6_state (by decide) (by decide)
  refine ⟨h1, h2, ?_, (h5 (by decide)).1⟩
  rw [h4]
  decide

end IridiumSniffer
